import Mathlib

/-! Online polling system: poll store, results aggregation and chart.

A shallow embedding of `src/script.js` (the localStorage poll helpers,
`calculateResults` and `drawPieChart`) together with theorems about it.

Modelling conventions.

* The two persisted keys `ops_polls` and `ops_user_votes` are the two fields of
  `Store`; `getPolls` / `getUserVotes` read them and `savePolls` /
  `saveUserVotes` write them back whole.  A persisted vote-count object holds
  numbers and strings, on which the JSON round trip is the identity.
* A vote-count object (`poll.votes`) is a list of own properties in insertion
  order whose keys are pairwise distinct (`VoteMap`).  A read `votes[key]`
  goes through the prototype chain: a key that is not an own property but
  names a member of `Object.prototype` reads as that member.  An assignment
  `votes[key] = v` updates or creates an own property, except that `__proto__`
  without an own property of that name goes to the inherited setter, which
  ignores a primitive.
* JavaScript numbers are IEEE doubles: `toDouble` rounds a rational to the
  nearest double (ties to even, 53 significant bits, exponent range taken to
  be unbounded).  Counts are non-negative integers; a sum, quotient or
  product is the exact result rounded by `toDouble`.  Overflow to `Infinity`
  and underflow are outside the embedding: the conditions `doubleVotes` and
  `doubleCounts` keep the exact sum of the counts below `2 ^ 1000`, where
  neither occurs.
* `Object.values` is taken in insertion order.  JavaScript lists keys that
  are array indices first; the conditions of the theorems on an arbitrary
  poll record do not depend on the order of the entries.
* The text of a built-in function is implementation-defined; `nativeText`
  gives the rendering of V8.  A stored string is taken not to be a numeric
  literal, so that it converts to `NaN`; decimal rendering of a number is
  that of integers below `10 ^ 21`.
* `Date.now()` is an input: `createPoll` receives the three clock readings it
  takes (for the id, for `createdAt`, and for `expiresAt`).  An ISO-8601
  timestamp string is represented by the instant (milliseconds) it denotes.
  `createPoll` is the function on the path where `toISOString` returns;
  `createPollCall` adds the `RangeError` it throws for an expiry instant that
  is not a valid date.  Clock readings are taken to be valid dates.
* `drawPieChart` is modelled by the sequence of calls it makes on the 2D
  drawing context; angles are doubles, `Math.PI` being the rational value of
  the double constant.
* `showToast` only touches the document; a call of it is recorded as the
  message and type passed.
-/

namespace Polling

/-! ## Numbers -/

/-- The integer nearest to `x`, a tie going to the even neighbour. -/
def roundHalfEven (x : ℚ) : ℤ :=
  if x - ⌊x⌋ < 1 / 2 then ⌊x⌋
  else if 1 / 2 < x - ⌊x⌋ then ⌊x⌋ + 1
  else if ⌊x⌋ % 2 = 0 then ⌊x⌋ else ⌊x⌋ + 1

/-- The integer part of the base-2 logarithm of `n` (0 for `n < 2`), by
halving at most `fuel` times. -/
def log2F : Nat → Nat → Nat
  | 0, _ => 0
  | fuel + 1, n => if n < 2 then 0 else log2F fuel (n / 2) + 1

/-- The binary exponent of a non-zero rational `y`: the integer `e` with
`2 ^ e ≤ |y| < 2 ^ (e + 1)`.  The difference of the logarithms of numerator
and denominator is `e` or `e + 1`. -/
def binade (y : ℚ) : ℤ :=
  if (2 : ℚ) ^ ((log2F y.num.natAbs y.num.natAbs : ℤ) - (log2F y.den y.den : ℤ)) ≤ |y| then
    (log2F y.num.natAbs y.num.natAbs : ℤ) - (log2F y.den y.den : ℤ)
  else (log2F y.num.natAbs y.num.natAbs : ℤ) - (log2F y.den y.den : ℤ) - 1

/-- The double nearest to the rational `y` (round to nearest, ties to even):
`y` is scaled by the power of two that brings it into `[2 ^ 52, 2 ^ 53)`,
rounded to an integer and scaled back. -/
def toDouble (y : ℚ) : ℚ :=
  if y = 0 then 0
  else (roundHalfEven (y / 2 ^ (binade y - 52)) : ℚ) * 2 ^ (binade y - 52)

/-- The sum `a + b` of two numbers holding non-negative integers: exact up to
`2 ^ 53`, rounded to the nearest double beyond. -/
def numAdd (a b : Nat) : Nat :=
  if a + b ≤ 9007199254740992 then a + b else ⌊toDouble ((a + b : ℕ) : ℚ)⌋.toNat

namespace Math

/-- The function `Math.round` on the value of a double: the nearest integer,
a half going towards positive infinity. -/
def round (x : ℚ) : ℤ := ⌊x + 1 / 2⌋

/-- The constant `Math.PI`: the double nearest to π, as the exact rational it
is (`0x1921FB54442D18 / 2 ^ 51`). -/
def PI : ℚ := 884279719003555 / 281474976710656

end Math

/-! ## Values -/

/-- The values that occur: a number holding a non-negative integer, `NaN`, a
string, or the member of `Object.prototype` of a given name (a built-in
function, or for `__proto__` the object the accessor returns). -/
inductive JsVal where
  | num (n : Nat)
  | nan
  | str (s : String)
  | native (name : String)
deriving DecidableEq

instance (n : Nat) : OfNat JsVal n := ⟨JsVal.num n⟩

/-- The names of the members of `Object.prototype`. -/
def protoNames : List String :=
  ["constructor", "__defineGetter__", "__defineSetter__", "hasOwnProperty",
    "__lookupGetter__", "__lookupSetter__", "isPrototypeOf", "propertyIsEnumerable",
    "toString", "valueOf", "__proto__", "toLocaleString"]

/-- The string a member of `Object.prototype` converts to. -/
def nativeText (name : String) : String :=
  if name = "__proto__" then "[object Object]"
  else if name = "constructor" then "function Object() \x7b [native code] \x7d"
  else "function " ++ name ++ "() \x7b [native code] \x7d"

namespace JsVal

/-- Truthiness: `0`, `NaN` and the empty string are falsy. -/
def truthy : JsVal → Bool
  | num n => n != 0
  | nan => false
  | str s => s != ""
  | native _ => true

/-- Conversion to a string, as the operator `+` applies it. -/
def toStr : JsVal → String
  | num n => toString n
  | nan => "NaN"
  | str s => s
  | native name => nativeText name

/-- The non-negative integer a value holds, if it is such a number. -/
def asNat : JsVal → Option Nat
  | num n => some n
  | _ => none

/-- The non-negative integer a number holds, `0` for any other value. -/
def toNat (v : JsVal) : Nat := v.asNat.getD 0

end JsVal

/-- The operator `+`: numeric addition on two numbers, concatenation of the
string conversions as soon as one operand is a string or an object. -/
def jsAdd : JsVal → JsVal → JsVal
  | JsVal.num a, JsVal.num b => JsVal.num (numAdd a b)
  | JsVal.num _, JsVal.nan => JsVal.nan
  | JsVal.nan, JsVal.num _ => JsVal.nan
  | JsVal.nan, JsVal.nan => JsVal.nan
  | a, b => JsVal.str (a.toStr ++ b.toStr)

/-- The expression `x || 0` for a value read from a vote-count object
(`none` standing for `undefined`): a falsy value gives `0`, a truthy one is
kept. -/
def orZero : Option JsVal → JsVal
  | none => 0
  | some v => if v.truthy then v else 0

/-- The sum of a list of values when all of them are numbers holding
non-negative integers, `none` otherwise. -/
def sumNums : List JsVal → Option Nat
  | [] => some 0
  | v :: rest =>
    match v.asNat, sumNums rest with
    | some n, some s => some (n + s)
    | _, _ => none

/-! ## Vote-count objects -/

/-- Own-property lookup on a list of own properties: the value of the first
entry with that key. -/
def getProp : List (String × JsVal) → String → Option JsVal
  | [], _ => none
  | (k, v) :: rest, key => if k = key then some v else getProp rest key

/-- Definition of an own data property (as an object literal `[key]: v` does
it): an existing key keeps its position and takes the new value, a new key
goes last. -/
def setProp : List (String × JsVal) → String → JsVal → List (String × JsVal)
  | [], key, v => [(key, v)]
  | (k, w) :: rest, key, v =>
    if k = key then (k, v) :: rest else (k, w) :: setProp rest key v

/-- Property read `obj[key]` on a plain object: the own property if there is
one, else the member of `Object.prototype` of that name if there is one, else
`undefined` (`none`). -/
def readProp (es : List (String × JsVal)) (key : String) : Option JsVal :=
  match getProp es key with
  | some v => some v
  | none => if key ∈ protoNames then some (JsVal.native key) else none

/-- A vote-count object: own properties in insertion order, keys pairwise
distinct. -/
structure VoteMap where
  entries : List (String × JsVal)
  nodupKeys : (entries.map Prod.fst).Nodup
deriving DecidableEq

namespace VoteMap

/-- The empty object literal. -/
def empty : VoteMap := ⟨[], List.nodup_nil⟩

/-- Own-property lookup. -/
def get (m : VoteMap) (key : String) : Option JsVal := getProp m.entries key

/-- Definition of the own property `key` with value `v`. -/
def set (m : VoteMap) (key : String) (v : JsVal) : VoteMap :=
  ⟨setProp m.entries key v, by
    have hkeys : ∀ es : List (String × JsVal), (setProp es key v).map Prod.fst =
        if key ∈ es.map Prod.fst then es.map Prod.fst else es.map Prod.fst ++ [key] := by
      intro es
      induction es with
      | nil => simp [setProp]
      | cons e rest ih =>
        obtain ⟨k, w⟩ := e
        by_cases hk : k = key
        · simp [setProp, hk]
        · have hk2 : ¬ key = k := fun h => hk h.symm
          by_cases hm : key ∈ rest.map Prod.fst
          · simp only [setProp, if_neg hk, List.map_cons, ih, if_pos hm, List.mem_cons, hm,
              or_true, if_true]
          · simp only [setProp, if_neg hk, List.map_cons, ih, if_neg hm, List.mem_cons, hm, hk2,
              or_self, if_false, List.cons_append]
    rw [hkeys]
    split
    · exact m.nodupKeys
    · rename_i hm
      rw [List.nodup_append]
      refine ⟨m.nodupKeys, List.nodup_singleton _, ?_⟩
      intro a ha hb
      rw [List.mem_singleton] at hb
      exact hm (hb ▸ ha)⟩

/-- Property read `votes[key]`, through the prototype chain. -/
def read (m : VoteMap) (key : String) : Option JsVal := readProp m.entries key

/-- Assignment `votes[key] = v` of a primitive `v`: an own property is
updated; without one, `__proto__` reaches the inherited setter, which leaves
the object as it is, and any other key becomes a new own property. -/
def assign (m : VoteMap) (key : String) (v : JsVal) : VoteMap :=
  if (m.get key).isNone && key == "__proto__" then m else m.set key v

/-- Own property names, `Object.keys(votes)`. -/
def keys (m : VoteMap) : List String := m.entries.map Prod.fst

/-- Own property values, `Object.values(votes)`. -/
def values (m : VoteMap) : List JsVal := m.entries.map Prod.snd

end VoteMap

/-! ## Poll records and the persisted store -/

/-- A poll record as built by `createPoll`. -/
structure Poll where
  id : String
  question : String
  options : List String
  createdAt : Nat
  expiresAt : Option Int
  votes : VoteMap
deriving DecidableEq

/-- The persisted state: the value under `ops_polls` and the value under
`ops_user_votes`. -/
structure Store where
  polls : List Poll
  userVotes : List String
deriving DecidableEq

/-- The store when neither key has been written: both reads default to `[]`. -/
def Store.empty : Store := ⟨[], []⟩

def getPolls (s : Store) : List Poll := s.polls

def savePolls (polls : List Poll) (s : Store) : Store := { s with polls := polls }

def getUserVotes (s : Store) : List String := s.userVotes

/-- The write `localStorage.setItem(STORAGE_KEYS.VOTES, JSON.stringify(userVotes))`. -/
def saveUserVotes (userVotes : List String) (s : Store) : Store :=
  { s with userVotes := userVotes }

/-- Truthiness of the optional `expiryDays` argument: `undefined` and `0` are
falsy. -/
def truthyDays : Option Int → Bool
  | none => false
  | some d => d != 0

/-- The function `createPoll(question, options, expiryDays)` on the path where
`toISOString` returns; `tId`, `tCreated` and `tExpiry` are the clock readings
of its three uses of the current time.  Returns the new id and the store after
`savePolls`. -/
def createPoll (question : String) (options : List String) (expiryDays : Option Int)
    (tId tCreated tExpiry : Nat) (s : Store) : String × Store :=
  let polls := getPolls s
  let pollId := "poll_" ++ toString tId
  let newPoll : Poll :=
    { id := pollId
      question := question
      options := options
      createdAt := tCreated
      expiresAt :=
        if truthyDays expiryDays then
          some ((tExpiry : Int) + expiryDays.getD 0 * 86400000)
        else none
      votes := options.foldl (fun acc opt => acc.set opt 0) VoteMap.empty }
  (pollId, savePolls (newPoll :: polls) s)

/-- Whether `new Date(t)` is a valid date, so that `toISOString` returns:
the time value is within 8.64e15 milliseconds of the epoch. -/
def validDate (t : Int) : Bool :=
  decide (-8640000000000000 ≤ t) && decide (t ≤ 8640000000000000)

/-- Whether `createPoll` throws: a truthy `expiryDays` whose expiry instant
`Date.now() + expiryDays * 86400000` is not a valid date makes `toISOString`
throw `RangeError` while the new record is being built. -/
def createPollThrows (expiryDays : Option Int) (tExpiry : Nat) : Bool :=
  truthyDays expiryDays && !validDate ((tExpiry : Int) + expiryDays.getD 0 * 86400000)

/-- A call `createPoll(question, options, expiryDays)`: `none` when it throws
(before `unshift` and `savePolls`, so nothing is stored and no id is
returned), else the id returned and the store afterwards. -/
def createPollCall (question : String) (options : List String) (expiryDays : Option Int)
    (tId tCreated tExpiry : Nat) (s : Store) : Option (String × Store) :=
  if createPollThrows expiryDays tExpiry then none
  else some (createPoll question options expiryDays tId tCreated tExpiry s)

/-- The function `deletePoll(pollId)`. -/
def deletePoll (pollId : String) (s : Store) : Store :=
  let polls := (getPolls s).filter (fun p => p.id != pollId)
  let s1 := savePolls polls s
  let userVotes := (getUserVotes s1).filter (fun id => id != pollId)
  saveUserVotes userVotes s1

/-- The function `hasVoted(pollId)`. -/
def hasVoted (pollId : String) (s : Store) : Bool := (getUserVotes s).contains pollId

/-- Array `findIndex`: the position of the first element satisfying the
predicate, `none` standing for `-1`. -/
def findIndex {α : Type} (pred : α → Bool) : List α → Option Nat
  | [] => none
  | x :: xs => if pred x then some 0 else (findIndex pred xs).map (· + 1)

/-- What a call of `submitVote` produces: the returned boolean, the toast it
shows (message and type) if any, and the store afterwards. -/
structure VoteOutcome where
  result : Bool
  toast : Option (String × String)
  store : Store
deriving DecidableEq

/-- The function `submitVote(pollId, option)`. -/
def submitVote (pollId option : String) (s : Store) : VoteOutcome :=
  if hasVoted pollId s then
    { result := false
      toast := some ("You have already voted on this poll.", "error")
      store := s }
  else
    let polls := getPolls s
    match findIndex (fun p => p.id == pollId) polls with
    | some pollIndex =>
      let polls1 := polls.modify
        (fun p =>
          { p with votes := p.votes.assign option (jsAdd (orZero (p.votes.read option)) 1) })
        pollIndex
      let s1 := savePolls polls1 s
      let userVotes := getUserVotes s1 ++ [pollId]
      { result := true, toast := none, store := saveUserVotes userVotes s1 }
    | none => { result := false, toast := none, store := s }

/-! ## Results aggregation -/

/-- One element of `calculateResults(poll).results`. -/
structure OptionResult where
  option : String
  count : JsVal
  percentage : JsVal
deriving DecidableEq

/-- The object returned by `calculateResults`. -/
structure Results where
  totalVotes : JsVal
  results : List OptionResult
deriving DecidableEq

/-- The expression `Math.round((count / totalVotes) * 100)` for a
`totalVotes` other than the number `0`: on two numbers, the quotient and the
product are each rounded to a double and the result to an integer; any other
operand converts to `NaN`, and so does the result. -/
def percentageOf (count totalVotes : JsVal) : JsVal :=
  match count, totalVotes with
  | JsVal.num c, JsVal.num t =>
    JsVal.num (Math.round (toDouble (toDouble ((c : ℚ) / (t : ℚ)) * 100))).toNat
  | _, _ => JsVal.nan

/-- The function `calculateResults(poll)`. -/
def calculateResults (poll : Poll) : Results :=
  let totalVotes : JsVal := poll.votes.values.foldl (fun a b => jsAdd a b) 0
  let results := poll.options.map fun option =>
    let count := orZero (poll.votes.read option)
    let percentage : JsVal := if totalVotes = 0 then 0 else percentageOf count totalVotes
    ({ option := option, count := count, percentage := percentage } : OptionResult)
  { totalVotes := totalVotes, results := results }

/-- Sum of the `count` fields of `calculateResults(poll).results`, `none` when
one of them is not a number. -/
def sumCounts (poll : Poll) : Option Nat :=
  sumNums ((calculateResults poll).results.map fun r => r.count)

/-- Sum of the `percentage` fields of `calculateResults(poll).results`, `none`
when one of them is not a number. -/
def sumPercentages (poll : Poll) : Option Nat :=
  sumNums ((calculateResults poll).results.map fun r => r.percentage)

/-- The exact sum of the counts a vote-count object holds, `none` when one of
its values is not a number. -/
def exactTotal (poll : Poll) : Option Nat := sumNums poll.votes.values

/-! ## Chart rendering -/

/-- The canvas element looked up by `drawPieChart`, with the two attributes
the function reads. -/
structure Canvas where
  width : Nat
  height : Nat
deriving DecidableEq

/-- An element of the `data` array of `drawPieChart`: an object with a `count`. -/
structure ChartItem where
  count : Nat
deriving DecidableEq

/-- A call on the 2D drawing context (or an assignment of its `fillStyle`). -/
inductive CanvasOp where
  | beginPath
  | moveTo (x y : ℚ)
  | arc (x y radius startAngle endAngle : ℚ)
  | closePath
  | fillStyle (style : String)
  | fill
deriving DecidableEq

/-- The palette `colors` of `drawPieChart`. -/
def colors : List String :=
  ["#2563eb", "#10b981", "#f59e0b", "#ef4444", "#8b5cf6", "#ec4899"]

/-- The value `(item.count / total) * (Math.PI * 2)` in doubles. -/
def sliceAngle (total : Nat) (item : ChartItem) : ℚ :=
  toDouble (toDouble ((item.count : ℚ) / (total : ℚ)) * toDouble (Math.PI * 2))

/-- The loop `data.forEach((item, index) => ...)` of `drawPieChart`, from the
element at position `index` on, with the current value of `startAngle`. -/
def drawSlices (centerX centerY radius : ℚ) (total : Nat) :
    List ChartItem → Nat → ℚ → List CanvasOp
  | [], _, _ => []
  | item :: rest, index, startAngle =>
    [CanvasOp.beginPath, CanvasOp.moveTo centerX centerY,
        CanvasOp.arc centerX centerY radius startAngle
          (toDouble (startAngle + sliceAngle total item)),
        CanvasOp.closePath,
        CanvasOp.fillStyle (colors.getD (index % colors.length) ""), CanvasOp.fill] ++
      drawSlices centerX centerY radius total rest (index + 1)
        (toDouble (startAngle + sliceAngle total item))

/-- The value `data.reduce((sum, item) => sum + item.count, 0)`. -/
def chartTotal (data : List ChartItem) : Nat :=
  data.foldl (fun sum item => numAdd sum item.count) 0

/-- The function `drawPieChart(canvasId, data)`: `canvas` is what
`document.getElementById(canvasId)` returns (`none` for `null`), `bgCard` the
trimmed value of the `--bg-card` style property; the result is the sequence of
calls made on the drawing context. -/
def drawPieChart (canvas : Option Canvas) (bgCard : String) (data : List ChartItem) :
    List CanvasOp :=
  match canvas with
  | none => []
  | some canvas =>
    let total : Nat := chartTotal data
    if total = 0 then
      [CanvasOp.beginPath,
        CanvasOp.arc (toDouble ((canvas.width : ℚ) / 2)) (toDouble ((canvas.height : ℚ) / 2)) 70 0
          (toDouble (Math.PI * 2)),
        CanvasOp.fillStyle "#e2e8f0", CanvasOp.fill]
    else
      let startAngle : ℚ := 0
      let centerX : ℚ := toDouble ((canvas.width : ℚ) / 2)
      let centerY : ℚ := toDouble ((canvas.height : ℚ) / 2)
      let radius : ℚ := 70
      drawSlices centerX centerY radius total data 0 startAngle ++
        [CanvasOp.beginPath, CanvasOp.arc centerX centerY 45 0 (toDouble (Math.PI * 2)),
          CanvasOp.fillStyle bgCard, CanvasOp.fill]

/-! ## Sequences of calls -/

/-- One call of a poll-store operation, with its arguments (for `createPoll`
also the clock readings it takes). -/
inductive Call where
  | create (question : String) (options : List String) (expiryDays : Option Int)
      (tId tCreated tExpiry : Nat)
  | delete (pollId : String)
  | vote (pollId option : String)
deriving DecidableEq

/-- The store after one call; a `createPoll` that throws leaves it as it is. -/
def Call.apply : Call → Store → Store
  | .create question options expiryDays tId tCreated tExpiry, s =>
    match createPollCall question options expiryDays tId tCreated tExpiry s with
    | some r => r.2
    | none => s
  | .delete pollId, s => deletePoll pollId s
  | .vote pollId option, s => (submitVote pollId option s).store

/-- The store after a sequence of calls, first call first. -/
def run (calls : List Call) (s : Store) : Store :=
  calls.foldl (fun st c => c.apply st) s

/-- Every key of every poll's vote-count object is one of that poll's
declared options. -/
def KeysDeclared (s : Store) : Prop :=
  ∀ p ∈ s.polls, ∀ k ∈ p.votes.keys, k ∈ p.options

instance (s : Store) : Decidable (KeysDeclared s) := by
  unfold KeysDeclared
  infer_instance

/-- A call that, if it is a vote, names an option declared by the poll it
targets in store `s` (the first poll with the given id, if there is one). -/
def Call.optionDeclared (s : Store) : Call → Bool
  | .vote pollId option =>
    match s.polls.find? (fun p => p.id == pollId) with
    | some p => p.options.contains option
    | none => true
  | _ => true

/-- Every vote in the sequence names an option declared by the poll it
targets at the time of the call. -/
def votesDeclared : List Call → Store → Bool
  | [], _ => true
  | c :: cs, s => c.optionDeclared s && votesDeclared cs (c.apply s)

/-- The clock readings from which the `createPoll` calls of a sequence derive
their ids, in call order. -/
def idClocks : List Call → List Nat
  | [] => []
  | .create _ _ _ tId _ _ :: cs => tId :: idClocks cs
  | .delete _ :: cs => idClocks cs
  | .vote _ _ :: cs => idClocks cs

/-- No two polls of the collection have the same id. -/
def UniqueIds (s : Store) : Prop := (s.polls.map fun p => p.id).Nodup

instance (s : Store) : Decidable (UniqueIds s) := by
  unfold UniqueIds
  infer_instance

/-- The decimal value of a list of digit characters, most significant first. -/
def digitsValue (cs : List Char) : Nat :=
  cs.foldl (fun acc c => 10 * acc + (c.toNat - 48)) 0

/-! ## Conditions on poll records -/

/-- All values of the vote-count object are numbers holding non-negative
integers, and their exact sum is at most `2 ^ 53`, the range in which sums of
integers are exact in doubles. -/
def safeCounts (poll : Poll) : Bool :=
  match exactTotal poll with
  | some n => decide (n ≤ 9007199254740992)
  | none => false

/-- All values of the vote-count object are numbers holding non-negative
integers that a double can hold (at most `2 ^ 53`, or left unchanged by
rounding to a double), and their exact sum is below `2 ^ 1000`, so that no
sum, quotient or product the code computes leaves the range of normal
doubles. -/
def doubleVotes (poll : Poll) : Bool :=
  (poll.votes.values.all fun v =>
    match v with
    | JsVal.num n => decide (n ≤ 9007199254740992) || decide (toDouble (n : ℚ) = (n : ℚ))
    | _ => false) &&
  match exactTotal poll with
  | some n => decide (n < 2 ^ 1000)
  | none => false

/-- The number `Math.round((c / t) * 100)` for numbers `c` and `t` holding
non-negative integers, `t` not 0. -/
def roundedPercent (c t : Nat) : Nat :=
  (Math.round (toDouble (toDouble ((c : ℚ) / (t : ℚ)) * 100))).toNat

/-- The counts of the chart items are non-negative integers that a double can
hold, and their exact sum is below `2 ^ 1000`, so that no sum, quotient or
product the code computes leaves the range of normal doubles. -/
def doubleCounts (data : List ChartItem) : Bool :=
  (data.all fun item =>
    decide (item.count ≤ 9007199254740992) ||
      decide (toDouble (item.count : ℚ) = (item.count : ℚ))) &&
  decide ((data.map fun item => item.count).sum < 2 ^ 1000)

/-- Every declared option is an own key of the vote-count object or is not
the name of a member of `Object.prototype`, so that no read of a declared
option yields an inherited member. -/
def OptionsReadOwn (poll : Poll) : Prop :=
  ∀ o ∈ poll.options, o ∈ poll.votes.keys ∨ o ∉ protoNames

instance (poll : Poll) : Decidable (OptionsReadOwn poll) := by
  unfold OptionsReadOwn
  infer_instance

/-! ## Sample records -/

/-- A poll whose option list repeats a label: options `["a", "a"]`, votes
`{a: 1}`. -/
def repeatedOptionPoll : Poll :=
  { id := "poll_1", question := "q", options := ["a", "a"], createdAt := 1, expiresAt := none
    votes := (VoteMap.empty.set "a" 1) }

/-- A poll holding a count under a key that is not a declared option: options
`["a"]`, votes `{a: 0, b: 1}`. -/
def strayKeyPoll : Poll :=
  { id := "poll_1", question := "q", options := ["a"], createdAt := 1, expiresAt := none
    votes := ((VoteMap.empty.set "a" 0).set "b" 1) }

/-- A poll declaring an option that names a member of `Object.prototype` and
is not a key of the vote-count object: options `["a", "constructor"]`, votes
`{a: 1}`. -/
def inheritedOptionPoll : Poll :=
  { id := "poll_1", question := "q", options := ["a", "constructor"], createdAt := 1
    expiresAt := none
    votes := (VoteMap.empty.set "a" 1) }

/-- A poll whose counts add up beyond `2 ^ 53`: options `["a", "b"]`, votes
`{a: 9007199254740992, b: 1}`. -/
def hugeCountPoll : Poll :=
  { id := "poll_1", question := "q", options := ["a", "b"], createdAt := 1, expiresAt := none
    votes := ((VoteMap.empty.set "a" 9007199254740992).set "b" 1) }

/-- A poll with two distinct options and votes on both: options `["a", "b"]`,
votes `{a: 2, b: 1}`. -/
def twoOptionPoll : Poll :=
  { id := "poll_2", question := "q", options := ["a", "b"], createdAt := 2, expiresAt := none
    votes := ((VoteMap.empty.set "a" 2).set "b" 1) }

/-- A poll with 23 votes of 40 on its first option: options `["x", "y"]`,
votes `{x: 23, y: 17}`. -/
def fortyVotePoll : Poll :=
  { id := "poll_4", question := "q", options := ["x", "y"], createdAt := 4, expiresAt := none
    votes := ((VoteMap.empty.set "x" 23).set "y" 17) }

/-- The store after `createPoll("q", ["a", "b"])` at clock reading 7 on the
empty store. -/
def freshStore : Store := (createPoll "q" ["a", "b"] none 7 7 7 Store.empty).2

/-- Two `createPoll` calls at the same clock reading 5. -/
def sameInstantCalls : List Call :=
  [Call.create "q" ["a"] none 5 5 5, Call.create "r" ["b"] none 5 5 5]

/-- Two `createPoll` calls at clock readings 5 and 6, a vote on the first poll
and its deletion. -/
def laterInstantCalls : List Call :=
  [Call.create "q" ["a"] none 5 5 5, Call.create "r" ["b"] none 6 6 6,
    Call.vote "poll_5" "a", Call.delete "poll_5"]

/-- A poll with three distinct options and one vote on each: options
`["a", "b", "c"]`, votes `{a: 1, b: 1, c: 1}`. -/
def threeWayPoll : Poll :=
  { id := "poll_3", question := "q", options := ["a", "b", "c"], createdAt := 3
    expiresAt := none
    votes := (((VoteMap.empty.set "a" 1).set "b" 1).set "c" 1) }

/-- A chart of three items with counts 1, 0 and 3. -/
def sampleChart : List ChartItem := [⟨1⟩, ⟨0⟩, ⟨3⟩]

/-- A chart of six items of count 1. -/
def sixEqualChart : List ChartItem := [⟨1⟩, ⟨1⟩, ⟨1⟩, ⟨1⟩, ⟨1⟩, ⟨1⟩]

/-- Create a two-option poll at clock reading 0, then vote on it for the label
`"constructor"`, which it does not declare. -/
def constructorVoteCalls : List Call :=
  [Call.create "q" ["a", "b"] none 0 0 0, Call.vote "poll_0" "constructor"]

/-- Create a two-option poll at clock reading 0, then vote on it for the label
`"__proto__"`, which it does not declare. -/
def protoVoteCalls : List Call :=
  [Call.create "q" ["a", "b"] none 0 0 0, Call.vote "poll_0" "__proto__"]


/-! ## Lemmas on vote-count objects -/

theorem getProp_setProp_self (es : List (String × JsVal)) (key : String) (v : JsVal) :
    getProp (setProp es key v) key = some v := by
  induction es with
  | nil => simp [setProp, getProp]
  | cons e rest ih =>
    obtain ⟨k, w⟩ := e
    by_cases hk : k = key
    · simp [setProp, getProp, hk]
    · simp [setProp, getProp, hk, ih]

theorem getProp_setProp_of_ne (es : List (String × JsVal)) (key other : String) (v : JsVal)
    (h : other ≠ key) : getProp (setProp es key v) other = getProp es other := by
  induction es with
  | nil =>
    have h2 : ¬ key = other := fun e => h e.symm
    simp [setProp, getProp, h2]
  | cons e rest ih =>
    obtain ⟨k, w⟩ := e
    by_cases hk : k = key
    · subst hk
      have h2 : ¬ k = other := fun e => h e.symm
      simp [setProp, getProp, h2]
    · by_cases hko : k = other
      · subst hko
        simp [setProp, getProp, hk]
      · simp [setProp, getProp, hk, hko, ih]

theorem getProp_eq_none_of_not_mem (es : List (String × JsVal)) (key : String)
    (h : key ∉ es.map Prod.fst) : getProp es key = none := by
  induction es with
  | nil => rfl
  | cons e rest ih =>
    obtain ⟨k, w⟩ := e
    simp only [List.map_cons, List.mem_cons, not_or] at h
    have hk : ¬ k = key := fun e => h.1 e.symm
    simp [getProp, hk, ih h.2]

theorem getProp_of_mem_keys (es : List (String × JsVal)) (key : String)
    (h : key ∈ es.map Prod.fst) : ∃ v, getProp es key = some v ∧ (key, v) ∈ es := by
  induction es with
  | nil => simp at h
  | cons e rest ih =>
    obtain ⟨k, w⟩ := e
    by_cases hk : k = key
    · subst hk
      exact ⟨w, by simp [getProp], List.mem_cons_self _ _⟩
    · have hr : key ∈ rest.map Prod.fst := by
        simp only [List.map_cons, List.mem_cons] at h
        rcases h with h | h
        · exact absurd h.symm hk
        · exact h
      obtain ⟨v, hv1, hv2⟩ := ih hr
      exact ⟨v, by simp [getProp, hk, hv1], List.mem_cons_of_mem _ hv2⟩

theorem mem_of_getProp_eq_some (es : List (String × JsVal)) (key : String) (v : JsVal)
    (h : getProp es key = some v) : (key, v) ∈ es := by
  induction es with
  | nil => simp [getProp] at h
  | cons e rest ih =>
    obtain ⟨k, w⟩ := e
    by_cases hk : k = key
    · subst hk
      simp only [getProp, if_true, Option.some.injEq] at h
      subst h
      exact List.mem_cons_self _ _
    · simp only [getProp, if_neg hk] at h
      exact List.mem_cons_of_mem _ (ih h)

theorem mem_setProp (es : List (String × JsVal)) (key : String) (v : JsVal)
    (kv : String × JsVal) (h : kv ∈ setProp es key v) : kv ∈ es ∨ kv = (key, v) := by
  induction es with
  | nil => simpa [setProp] using h
  | cons e rest ih =>
    obtain ⟨k, w⟩ := e
    by_cases hk : k = key
    · subst hk
      simp only [setProp, if_true, List.mem_cons] at h
      rcases h with h | h
      · exact Or.inr h
      · exact Or.inl (List.mem_cons_of_mem _ h)
    · simp only [setProp, if_neg hk, List.mem_cons] at h
      rcases h with h | h
      · exact Or.inl (h ▸ List.mem_cons_self _ _)
      · rcases ih h with h2 | h2
        · exact Or.inl (List.mem_cons_of_mem _ h2)
        · exact Or.inr h2

theorem mem_keys_setProp (es : List (String × JsVal)) (key : String) (v : JsVal)
    (k : String) : k ∈ (setProp es key v).map Prod.fst ↔ k ∈ es.map Prod.fst ∨ k = key := by
  induction es with
  | nil => simp [setProp]
  | cons e rest ih =>
    obtain ⟨k0, w⟩ := e
    by_cases hk : k0 = key
    · subst hk
      simp only [setProp, if_true, List.map_cons, List.mem_cons]
      tauto
    · simp only [setProp, if_neg hk, List.map_cons, List.mem_cons, ih]
      tauto

theorem VoteMap.get_set_self (m : VoteMap) (key : String) (v : JsVal) :
    (m.set key v).get key = some v :=
  getProp_setProp_self m.entries key v

theorem VoteMap.get_set_of_ne (m : VoteMap) (key other : String) (v : JsVal)
    (h : other ≠ key) : (m.set key v).get other = m.get other :=
  getProp_setProp_of_ne m.entries key other v h

theorem VoteMap.mem_keys_set (m : VoteMap) (key : String) (v : JsVal) (k : String) :
    k ∈ (m.set key v).keys ↔ k ∈ m.keys ∨ k = key :=
  mem_keys_setProp m.entries key v k

/-- A read of an own key yields the own value. -/
theorem VoteMap.read_of_get (m : VoteMap) (key : String) (v : JsVal)
    (h : m.get key = some v) : m.read key = some v := by
  simp only [VoteMap.get] at h
  simp [VoteMap.read, readProp, h]

/-- A read of a name that is neither an own key nor a member of
`Object.prototype` yields `undefined`. -/
theorem VoteMap.read_of_absent (m : VoteMap) (key : String) (h1 : key ∉ m.keys)
    (h2 : key ∉ protoNames) : m.read key = none := by
  simp [VoteMap.read, readProp, getProp_eq_none_of_not_mem m.entries key h1, h2]

/-- An assignment to an own key is the definition of that key. -/
theorem VoteMap.assign_of_get (m : VoteMap) (key : String) (v w : JsVal)
    (h : m.get key = some w) : m.assign key v = m.set key v := by
  simp [VoteMap.assign, h]

/-- An assignment adds no key other than the one assigned. -/
theorem VoteMap.mem_keys_assign (m : VoteMap) (key : String) (v : JsVal) (k : String)
    (h : k ∈ (m.assign key v).keys) : k ∈ m.keys ∨ k = key := by
  unfold VoteMap.assign at h
  split at h
  · exact Or.inl h
  · exact (VoteMap.mem_keys_set m key v k).mp h

/-- The reduction `options.reduce((acc, opt) => ({...acc, [opt]: 0}), acc0)`
started from an object `m`: its keys are those of `m` and the options. -/
theorem mem_keys_foldl_set (options : List String) (m : VoteMap) (k : String) :
    k ∈ (options.foldl (fun acc opt => acc.set opt 0) m).keys ↔ k ∈ m.keys ∨ k ∈ options := by
  induction options generalizing m with
  | nil => simp
  | cons o os ih =>
    rw [List.foldl_cons, ih, VoteMap.mem_keys_set, List.mem_cons]
    tauto

theorem values_foldl_set (options : List String) (m : VoteMap)
    (hm : ∀ kv ∈ m.entries, kv.2 = 0) :
    ∀ kv ∈ (options.foldl (fun acc opt => acc.set opt 0) m).entries, kv.2 = 0 := by
  induction options generalizing m with
  | nil => simpa using hm
  | cons o os ih =>
    rw [List.foldl_cons]
    apply ih
    intro kv hkv
    rcases mem_setProp m.entries o 0 kv hkv with h | h
    · exact hm kv h
    · rw [h]

/-! ## Lemmas on sums of numbers -/

theorem numAdd_of_le (a b : Nat) (h : a + b ≤ 9007199254740992) : numAdd a b = a + b := by
  simp [numAdd, h]

theorem jsAdd_num_num (a b : Nat) : jsAdd (JsVal.num a) (JsVal.num b) = JsVal.num (numAdd a b) :=
  rfl

/-- A left-to-right sum of numbers is exact as long as the exact sum is at
most `2 ^ 53`. -/
theorem foldl_jsAdd_nums (ns : List Nat) (acc : Nat) (h : acc + ns.sum ≤ 9007199254740992) :
    (ns.map JsVal.num).foldl (fun a b => jsAdd a b) (JsVal.num acc) =
      JsVal.num (acc + ns.sum) := by
  induction ns generalizing acc with
  | nil => simp
  | cons n rest ih =>
    simp only [List.sum_cons] at h
    rw [List.map_cons, List.foldl_cons, jsAdd_num_num, numAdd_of_le _ _ (by omega),
      ih _ (by omega), List.sum_cons, Nat.add_assoc]

theorem sumNums_map_num (ns : List Nat) : sumNums (ns.map JsVal.num) = some ns.sum := by
  induction ns with
  | nil => rfl
  | cons n rest ih => simp [sumNums, JsVal.asNat, ih]

/-- The votes object `createPoll` builds for an option list. -/
theorem initVotes_spec (options : List String) :
    (∀ k, k ∈ (options.foldl (fun acc opt => acc.set opt 0) VoteMap.empty).keys ↔ k ∈ options) ∧
      (∀ k ∈ options,
        (options.foldl (fun acc opt => acc.set opt 0) VoteMap.empty).get k = some 0) ∧
      (∀ v ∈ (options.foldl (fun acc opt => acc.set opt 0) VoteMap.empty).values, v = 0) := by
  have hz := values_foldl_set options VoteMap.empty (by simp [VoteMap.empty])
  have hk : ∀ k, k ∈ (options.foldl (fun acc opt => acc.set opt 0) VoteMap.empty).keys ↔
      k ∈ options := by
    intro k
    rw [mem_keys_foldl_set]
    simp [VoteMap.empty, VoteMap.keys]
  refine ⟨hk, ?_, ?_⟩
  · intro k hko
    obtain ⟨v, hv1, hv2⟩ := getProp_of_mem_keys _ k ((hk k).mpr hko)
    have hv0 : v = 0 := hz _ hv2
    rw [VoteMap.get, hv1, hv0]
  · intro v hv
    obtain ⟨kv, hkv, rfl⟩ := List.mem_map.mp hv
    exact hz kv hkv

/-- Adding zeros leaves a number as it is. -/
theorem foldl_jsAdd_zeros (vs : List JsVal) (acc : Nat) (h : ∀ v ∈ vs, v = 0)
    (hacc : acc ≤ 9007199254740992) :
    vs.foldl (fun a b => jsAdd a b) (JsVal.num acc) = JsVal.num acc := by
  induction vs with
  | nil => rfl
  | cons v rest ih =>
    have hv : v = JsVal.num 0 := h v (List.mem_cons_self _ _)
    subst hv
    rw [List.foldl_cons, jsAdd_num_num, numAdd_of_le _ _ (by omega), Nat.add_zero]
    exact ih fun w hw => h w (List.mem_cons_of_mem _ hw)

/-! ## Lemmas on the store operations -/

theorem findIndex_eq_none_iff {α : Type} (pred : α → Bool) (l : List α) :
    findIndex pred l = none ↔ ∀ x ∈ l, pred x = false := by
  induction l with
  | nil => simp [findIndex]
  | cons x xs ih =>
    by_cases hx : pred x = true
    · simp [findIndex, hx]
    · simp only [Bool.not_eq_true] at hx
      simp [findIndex, hx, ih]

/-- The index returned by `findIndex` holds an element satisfying the
predicate, and no earlier element satisfies it. -/
theorem findIndex_eq_some {α : Type} (pred : α → Bool) (l : List α) (i : Nat)
    (h : findIndex pred l = some i) :
    (∃ x, l[i]? = some x ∧ pred x = true ∧ l.find? pred = some x) ∧
      ∀ j, j < i → ∀ y, l[j]? = some y → pred y = false := by
  induction l generalizing i with
  | nil => simp [findIndex] at h
  | cons x xs ih =>
    by_cases hx : pred x = true
    · simp only [findIndex, hx, if_true, Option.some.injEq] at h
      subst h
      refine ⟨⟨x, by simp, hx, by simp [List.find?, hx]⟩, ?_⟩
      intro j hj
      omega
    · simp only [Bool.not_eq_true] at hx
      simp only [findIndex, hx, Bool.false_eq_true, if_false, Option.map_eq_some'] at h
      obtain ⟨i0, hi0, rfl⟩ := h
      obtain ⟨⟨y, hy1, hy2, hy3⟩, hlt⟩ := ih i0 hi0
      refine ⟨⟨y, by simpa using hy1, hy2, by simp [List.find?, hx, hy3]⟩, ?_⟩
      intro j hj z hz
      cases j with
      | zero =>
        simp only [List.getElem?_cons_zero, Option.some.injEq] at hz
        exact hz ▸ hx
      | succ j0 =>
        simp only [List.getElem?_cons_succ] at hz
        exact hlt j0 (by omega) z hz

theorem hasVoted_iff (pollId : String) (s : Store) :
    hasVoted pollId s = true ↔ pollId ∈ s.userVotes := by
  simp [hasVoted, getUserVotes]

theorem submitVote_of_hasVoted (pollId option : String) (s : Store)
    (h : hasVoted pollId s = true) :
    submitVote pollId option s =
      { result := false
        toast := some ("You have already voted on this poll.", "error")
        store := s } := by
  simp [submitVote, h]

theorem submitVote_of_not_found (pollId option : String) (s : Store)
    (hv : hasVoted pollId s = false)
    (hf : findIndex (fun p => p.id == pollId) s.polls = none) :
    submitVote pollId option s = { result := false, toast := none, store := s } := by
  simp [submitVote, hv, getPolls, hf]

theorem submitVote_of_found (pollId option : String) (s : Store) (i : Nat)
    (hv : hasVoted pollId s = false)
    (hf : findIndex (fun p => p.id == pollId) s.polls = some i) :
    submitVote pollId option s =
      { result := true
        toast := none
        store :=
          { polls := s.polls.modify
              (fun p => { p with votes := p.votes.assign option (jsAdd (orZero (p.votes.read option)) 1) }) i
            userVotes := s.userVotes ++ [pollId] } } := by
  simp [submitVote, hv, getPolls, hf, savePolls, saveUserVotes, getUserVotes]

/-- A vote that is accepted records the poll id in the voted-set. -/
theorem hasVoted_of_submitVote_true (pollId option : String) (s : Store)
    (h : (submitVote pollId option s).result = true) :
    hasVoted pollId (submitVote pollId option s).store = true := by
  cases hv : hasVoted pollId s with
  | true => rw [submitVote_of_hasVoted _ _ _ hv] at h; simp at h
  | false =>
    cases hf : findIndex (fun p => p.id == pollId) s.polls with
    | none => rw [submitVote_of_not_found _ _ _ hv hf] at h; simp at h
    | some i =>
      rw [submitVote_of_found _ _ _ i hv hf, hasVoted_iff]
      simp

/-! ## Poll ids are injective in the clock reading -/

theorem digitChar_value (d : Nat) (h : d < 10) : (Nat.digitChar d).toNat - 48 = d := by
  interval_cases d <;> rfl

theorem digitsValue_append_singleton (cs : List Char) (c : Char) :
    digitsValue (cs ++ [c]) = 10 * digitsValue cs + (c.toNat - 48) := by
  simp [digitsValue, List.foldl_append]

/-- With enough fuel `toDigitsCore` puts the decimal digits of `n` in front
of the digits already produced. -/
theorem toDigitsCore_spec (fuel n : Nat) (ds : List Char) (h : n < fuel) :
    ∃ pre, Nat.toDigitsCore 10 fuel n ds = pre ++ ds ∧ digitsValue pre = n := by
  induction fuel generalizing n ds with
  | zero => omega
  | succ fuel ih =>
    by_cases h0 : n / 10 = 0
    · refine ⟨[Nat.digitChar (n % 10)], by simp [Nat.toDigitsCore, h0], ?_⟩
      have hd := digitChar_value (n % 10) (Nat.mod_lt _ (by decide))
      simp only [digitsValue, List.foldl_cons, List.foldl_nil, hd]
      omega
    · obtain ⟨pre, hpre, hval⟩ := ih (n / 10) (Nat.digitChar (n % 10) :: ds) (by omega)
      refine ⟨pre ++ [Nat.digitChar (n % 10)], by simp [Nat.toDigitsCore, h0, hpre], ?_⟩
      rw [digitsValue_append_singleton, hval,
        digitChar_value (n % 10) (Nat.mod_lt _ (by decide))]
      omega

theorem digitsValue_toDigits (n : Nat) : digitsValue (Nat.toDigits 10 n) = n := by
  obtain ⟨pre, hpre, hval⟩ := toDigitsCore_spec (n + 1) n [] (Nat.lt_succ_self n)
  rw [Nat.toDigits, hpre, List.append_nil, hval]

theorem toString_nat_injective (a b : Nat) (h : toString a = toString b) : a = b := by
  have h1 : (Nat.toDigits 10 a).asString = (Nat.toDigits 10 b).asString := h
  have h2 : Nat.toDigits 10 a = Nat.toDigits 10 b := congrArg String.data h1
  rw [← digitsValue_toDigits a, ← digitsValue_toDigits b, h2]

/-- Two ids built by `createPoll` are equal only if the clock readings are. -/
theorem pollId_injective (a b : Nat) (h : "poll_" ++ toString a = "poll_" ++ toString b) :
    a = b := by
  apply toString_nat_injective
  have h1 := congrArg String.data h
  simp only [String.data_append] at h1
  exact String.ext (List.append_cancel_left h1)

/-! ## Lemmas on call sequences -/

theorem run_cons (c : Call) (cs : List Call) (s : Store) :
    run (c :: cs) s = run cs (c.apply s) := rfl

/-- A `createPoll` call either throws and leaves the store, or completes as
`createPoll` does. -/
theorem apply_create (question : String) (options : List String) (expiryDays : Option Int)
    (tId tCreated tExpiry : Nat) (s : Store) :
    (Call.create question options expiryDays tId tCreated tExpiry).apply s = s ∨
      (Call.create question options expiryDays tId tCreated tExpiry).apply s =
        (createPoll question options expiryDays tId tCreated tExpiry s).2 := by
  by_cases h : createPollThrows expiryDays tExpiry = true
  · left
    simp [Call.apply, createPollCall, h]
  · right
    simp [Call.apply, createPollCall, h]

theorem keysDeclared_empty : KeysDeclared Store.empty := by
  intro p hp
  simp [Store.empty] at hp

theorem keysDeclared_createPoll (s : Store) (question : String) (options : List String)
    (expiryDays : Option Int) (tId tCreated tExpiry : Nat) (h : KeysDeclared s) :
    KeysDeclared (createPoll question options expiryDays tId tCreated tExpiry s).2 := by
  intro p hp k hk
  simp only [createPoll, savePolls, getPolls, List.mem_cons] at hp
  rcases hp with hp | hp
  · subst hp
    exact ((initVotes_spec options).1 k).mp hk
  · exact h p hp k hk

theorem keysDeclared_deletePoll (s : Store) (pollId : String) (h : KeysDeclared s) :
    KeysDeclared (deletePoll pollId s) := by
  intro p hp k hk
  simp only [deletePoll, savePolls, getPolls, saveUserVotes] at hp
  exact h p (List.mem_filter.mp hp).1 k hk

/-- A vote for an option declared by the targeted poll adds no undeclared key. -/
theorem keysDeclared_submitVote (s : Store) (pollId option : String) (h : KeysDeclared s)
    (hd : (Call.vote pollId option).optionDeclared s = true) :
    KeysDeclared (submitVote pollId option s).store := by
  cases hv : hasVoted pollId s with
  | true => rw [submitVote_of_hasVoted _ _ _ hv]; exact h
  | false =>
    cases hf : findIndex (fun p => p.id == pollId) s.polls with
    | none => rw [submitVote_of_not_found _ _ _ hv hf]; exact h
    | some i =>
      obtain ⟨⟨p, hp1, _, hp3⟩, _⟩ := findIndex_eq_some _ _ i hf
      rw [submitVote_of_found _ _ _ i hv hf]
      simp only [Call.optionDeclared, hp3] at hd
      have hd1 : option ∈ p.options := by simpa using hd
      intro q hq k hk
      obtain ⟨j, hj⟩ := List.mem_iff_getElem?.mp hq
      by_cases hji : j = i
      · subst hji
        simp only [List.getElem?_modify_eq, hp1, Option.map_eq_map, Option.map_some',
          Option.some.injEq] at hj
        subst hj
        rcases VoteMap.mem_keys_assign _ _ _ _ hk with hk1 | hk1
        · exact h p (List.getElem?_mem hp1) k hk1
        · rw [hk1]
          exact hd1
      · rw [List.getElem?_modify_ne _ _ (fun e => hji e.symm)] at hj
        exact h q (List.getElem?_mem hj) k hk

theorem keysDeclared_run (calls : List Call) (s : Store) (h : KeysDeclared s)
    (hd : votesDeclared calls s = true) : KeysDeclared (run calls s) := by
  induction calls generalizing s with
  | nil => exact h
  | cons c cs ih =>
    simp only [votesDeclared, Bool.and_eq_true] at hd
    rw [run_cons]
    apply ih _ _ hd.2
    cases c with
    | create question options expiryDays tId tCreated tExpiry =>
      rcases apply_create question options expiryDays tId tCreated tExpiry s with he | he
      · rw [he]
        exact h
      · rw [he]
        exact keysDeclared_createPoll s question options expiryDays tId tCreated tExpiry h
    | delete pollId => exact keysDeclared_deletePoll s pollId h
    | vote pollId option => exact keysDeclared_submitVote s pollId option h hd.1

theorem map_modify_of_eq {α β : Type} (f : α → α) (g : α → β) (hg : ∀ x, g (f x) = g x)
    (l : List α) (i : Nat) : (l.modify f i).map g = l.map g := by
  induction l generalizing i with
  | nil => simp
  | cons x xs ih =>
    cases i with
    | zero => simp [hg]
    | succ j => simp [ih]

/-- The ids of the collection, in order, are not touched by `submitVote`. -/
theorem ids_submitVote (pollId option : String) (s : Store) :
    ((submitVote pollId option s).store.polls.map fun p => p.id) =
      s.polls.map fun p => p.id := by
  cases hv : hasVoted pollId s with
  | true => rw [submitVote_of_hasVoted _ _ _ hv]
  | false =>
    cases hf : findIndex (fun p => p.id == pollId) s.polls with
    | none => rw [submitVote_of_not_found _ _ _ hv hf]
    | some i =>
      rw [submitVote_of_found _ _ _ i hv hf]
      exact map_modify_of_eq
        (fun p =>
          { p with votes := p.votes.assign option (jsAdd (orZero (p.votes.read option)) 1) })
        (fun p => p.id) (fun _ => rfl) s.polls i

/-- Ids stay pairwise distinct along a call sequence whose id clock readings
increase strictly and start at or above a bound on the readings used so far. -/
theorem uniqueIds_run (calls : List Call) (s : Store) (b : Nat) (hu : UniqueIds s)
    (hb : ∀ i ∈ s.polls.map (fun p => p.id), ∃ t, t < b ∧ i = "poll_" ++ toString t)
    (hc : (idClocks calls).Pairwise (fun x y => x < y)) (hge : ∀ t ∈ idClocks calls, b ≤ t) :
    UniqueIds (run calls s) := by
  induction calls generalizing s b with
  | nil => exact hu
  | cons c cs ih =>
    rw [run_cons]
    cases c with
    | create question options expiryDays tId tCreated tExpiry =>
      simp only [idClocks, List.pairwise_cons, List.mem_cons, forall_eq_or_imp] at hc hge
      rcases apply_create question options expiryDays tId tCreated tExpiry s with he | he
      · rw [he]
        exact ih s b hu hb hc.2 fun t ht => by
          have := hc.1 t ht
          omega
      · rw [he]
        apply ih _ (tId + 1)
        · simp only [UniqueIds, createPoll, savePolls, getPolls, List.map_cons,
            List.nodup_cons]
          refine ⟨?_, hu⟩
          intro hmem
          obtain ⟨t, ht, hid⟩ := hb _ hmem
          have := pollId_injective _ _ hid
          omega
        · intro i hi
          simp only [createPoll, savePolls, getPolls, List.map_cons, List.mem_cons] at hi
          rcases hi with hi | hi
          · exact ⟨tId, Nat.lt_succ_self _, hi⟩
          · obtain ⟨t, ht, hid⟩ := hb i hi
            exact ⟨t, by omega, hid⟩
        · exact hc.2
        · intro t ht
          exact hc.1 t ht
    | delete pollId =>
      simp only [idClocks] at hc hge
      have hsub : List.Sublist ((deletePoll pollId s).polls.map fun p => p.id)
          (s.polls.map fun p => p.id) := by
        simp only [deletePoll, savePolls, getPolls, saveUserVotes]
        exact List.Sublist.map _ (List.filter_sublist _)
      apply ih _ b
      · exact List.Nodup.sublist hsub hu
      · intro i hi
        exact hb i (hsub.subset hi)
      · exact hc
      · exact hge
    | vote pollId option =>
      simp only [idClocks] at hc hge
      apply ih _ b
      · simp only [UniqueIds, Call.apply, ids_submitVote]
        exact hu
      · intro i hi
        simp only [Call.apply, ids_submitVote] at hi
        exact hb i hi
      · exact hc
      · exact hge

/-! ## Lemmas on the aggregate of a new poll -/

theorem orZero_some_zero : orZero (some (0 : JsVal)) = 0 := rfl

theorem orZero_some_one : orZero (some (1 : JsVal)) = 1 := rfl

theorem percentageOf_one_one : percentageOf 1 1 = 100 := by decide!

theorem percentageOf_zero_one : percentageOf 0 1 = 0 := by decide!

theorem totalVotes_of_zeros (poll : Poll) (h : ∀ v ∈ poll.votes.values, v = 0) :
    (calculateResults poll).totalVotes = 0 :=
  foldl_jsAdd_zeros poll.votes.values 0 h (by decide)

/-- Over an object of zeros, defining one existing key as `1` makes the
left-to-right sum of the values go up by one. -/
theorem foldl_jsAdd_setProp_one (es : List (String × JsVal)) (key : String) (acc : Nat)
    (hz : ∀ kv ∈ es, kv.2 = 0) (hk : key ∈ es.map Prod.fst)
    (hacc : acc + 1 ≤ 9007199254740992) :
    ((setProp es key 1).map Prod.snd).foldl (fun a b => jsAdd a b) (JsVal.num acc) =
      JsVal.num (acc + 1) := by
  induction es with
  | nil => simp at hk
  | cons e rest ih =>
    obtain ⟨k, w⟩ := e
    have hw : w = JsVal.num 0 := hz (k, w) (List.mem_cons_self _ _)
    subst hw
    have hrest : ∀ kv ∈ rest, kv.2 = 0 := fun kv hkv => hz kv (List.mem_cons_of_mem _ hkv)
    by_cases hkk : k = key
    · simp only [setProp, if_pos hkk, List.map_cons, List.foldl_cons]
      have h1 : jsAdd (JsVal.num acc) 1 = JsVal.num (acc + 1) := by
        show jsAdd (JsVal.num acc) (JsVal.num 1) = _
        rw [jsAdd_num_num, numAdd_of_le _ _ hacc]
      rw [h1]
      apply foldl_jsAdd_zeros _ _ _ hacc
      intro v hv
      obtain ⟨kv, hkv, rfl⟩ := List.mem_map.mp hv
      exact hrest kv hkv
    · have hk2 : key ∈ rest.map Prod.fst := by
        simp only [List.map_cons, List.mem_cons] at hk
        rcases hk with hk | hk
        · exact absurd hk.symm hkk
        · exact hk
      simp only [setProp, if_neg hkk, List.map_cons, List.foldl_cons]
      rw [jsAdd_num_num, numAdd_of_le _ _ (by omega), Nat.add_zero]
      exact ih hrest hk2

/-! ## Lemmas on double rounding -/

theorem roundHalfEven_abs_sub_le (x : ℚ) : |(roundHalfEven x : ℚ) - x| ≤ 1 / 2 := by
  have h1 := Int.floor_le x
  have h2 := Int.lt_floor_add_one x
  unfold roundHalfEven
  rw [abs_le]
  split_ifs with ha hb hc
  · constructor <;> linarith
  · push_cast
    constructor <;> linarith
  · constructor <;> linarith
  · push_cast
    constructor <;> linarith

theorem roundHalfEven_nonneg (x : ℚ) (h : 0 ≤ x) : 0 ≤ roundHalfEven x := by
  have h0 : 0 ≤ ⌊x⌋ := Int.floor_nonneg.mpr h
  unfold roundHalfEven
  split_ifs <;> omega

theorem toDouble_zero : toDouble 0 = 0 := by simp [toDouble]

theorem toDouble_nonneg (y : ℚ) (h : 0 ≤ y) : 0 ≤ toDouble y := by
  unfold toDouble
  split_ifs with h0
  · exact le_refl _
  · have hp : (0 : ℚ) < 2 ^ (binade y - 52) := zpow_pos (by norm_num) _
    have hr := roundHalfEven_nonneg (y / 2 ^ (binade y - 52)) (div_nonneg h hp.le)
    have hrq : (0 : ℚ) ≤ (roundHalfEven (y / 2 ^ (binade y - 52)) : ℚ) := by
      exact_mod_cast hr
    exact mul_nonneg hrq hp.le

theorem log2F_spec (fuel n : Nat) (h1 : 1 ≤ n) (hf : n ≤ fuel) :
    2 ^ log2F fuel n ≤ n ∧ n < 2 ^ (log2F fuel n + 1) := by
  induction fuel generalizing n with
  | zero => omega
  | succ fuel ih =>
    by_cases h2 : n < 2
    · simp only [log2F, if_pos h2]
      omega
    · simp only [log2F, if_neg h2]
      obtain ⟨ha, hb⟩ := ih (n / 2) (by omega) (by omega)
      rw [pow_succ, pow_succ]
      rw [pow_succ] at hb
      constructor <;> omega

/-- The binary exponent of a positive rational is at most its logarithm. -/
theorem two_zpow_binade_le (y : ℚ) (h : 0 < y) : (2 : ℚ) ^ binade y ≤ y := by
  have habs : |y| = y := abs_of_pos h
  unfold binade
  split_ifs with hc
  · rw [habs] at hc
    exact hc
  · have hnum : 0 < y.num := Rat.num_pos.mpr h
    have hden : 0 < y.den := y.den_pos
    have hna : 1 ≤ y.num.natAbs := Int.natAbs_pos.mpr (ne_of_gt hnum)
    obtain ⟨ha, _⟩ := log2F_spec y.num.natAbs y.num.natAbs hna (le_refl _)
    obtain ⟨_, hb⟩ := log2F_spec y.den y.den hden (le_refl _)
    have hyq : y = (y.num.natAbs : ℚ) / (y.den : ℚ) := by
      have hcast : ((y.num.natAbs : ℕ) : ℚ) = (y.num : ℚ) := by
        rw [Nat.cast_natAbs, abs_of_pos hnum]
      rw [hcast]
      exact (Rat.num_div_den y).symm
    have hpow : (2 : ℚ) ^ ((log2F y.num.natAbs y.num.natAbs : ℤ) - (log2F y.den y.den : ℤ) - 1) =
        (2 : ℚ) ^ log2F y.num.natAbs y.num.natAbs / (2 : ℚ) ^ (log2F y.den y.den + 1) := by
      rw [sub_sub, zpow_sub₀ (by norm_num : (2 : ℚ) ≠ 0)]
      congr 1
      · exact zpow_natCast _ _
      · exact_mod_cast zpow_natCast (2 : ℚ) (log2F y.den y.den + 1)
    rw [hpow]
    have haq : (2 : ℚ) ^ log2F y.num.natAbs y.num.natAbs ≤ (y.num.natAbs : ℚ) := by
      exact_mod_cast ha
    have hbq : (y.den : ℚ) ≤ (2 : ℚ) ^ (log2F y.den y.den + 1) := by
      exact_mod_cast hb.le
    have hdq : (0 : ℚ) < (y.den : ℚ) := by exact_mod_cast hden
    calc (2 : ℚ) ^ log2F y.num.natAbs y.num.natAbs / (2 : ℚ) ^ (log2F y.den y.den + 1)
        ≤ (y.num.natAbs : ℚ) / (y.den : ℚ) :=
          div_le_div₀ (by positivity) haq hdq hbq
      _ = y := hyq.symm

/-- The relative error of rounding a positive rational to a double is at
most `2 ^ -53`. -/
theorem toDouble_abs_sub_le (y : ℚ) (h : 0 < y) : |toDouble y - y| ≤ y / 2 ^ 53 := by
  have hy0 : y ≠ 0 := ne_of_gt h
  have hp : (0 : ℚ) < 2 ^ (binade y - 52) := zpow_pos (by norm_num) _
  have hlog : (2 : ℚ) ^ binade y ≤ y := two_zpow_binade_le y h
  have herr := roundHalfEven_abs_sub_le (y / 2 ^ (binade y - 52))
  have hsplit : (2 : ℚ) ^ binade y = 2 ^ (binade y - 52) * 2 ^ (52 : ℤ) := by
    rw [← zpow_add₀ (by norm_num : (2 : ℚ) ≠ 0)]
    congr 1
    ring
  have h52 : (2 : ℚ) ^ (52 : ℤ) = 4503599627370496 := by norm_num
  have heq : toDouble y - y =
      ((roundHalfEven (y / 2 ^ (binade y - 52)) : ℚ) - y / 2 ^ (binade y - 52)) *
        2 ^ (binade y - 52) := by
    simp only [toDouble, hy0, if_false]
    field_simp
  rw [heq, abs_mul, abs_of_pos hp]
  have hstep : |(roundHalfEven (y / 2 ^ (binade y - 52)) : ℚ) - y / 2 ^ (binade y - 52)| *
      2 ^ (binade y - 52) ≤ 1 / 2 * 2 ^ (binade y - 52) :=
    mul_le_mul_of_nonneg_right herr hp.le
  rw [hsplit, h52] at hlog
  have h53 : (2 : ℚ) ^ 53 = 9007199254740992 := by norm_num
  rw [h53]
  rw [le_div_iff₀ (by norm_num)]
  nlinarith

/-- The double computation `(c / t) * 100` of a share `c ≤ t` of a positive
total is non-negative and within a relative error of `3 / 2 ^ 53` of the exact
percentage. -/
theorem percentage_double_bounds (c t : Nat) (ht : 0 < t) :
    0 ≤ toDouble (toDouble ((c : ℚ) / (t : ℚ)) * 100) ∧
      |toDouble (toDouble ((c : ℚ) / (t : ℚ)) * 100) - (c : ℚ) / (t : ℚ) * 100| ≤
        (c : ℚ) / (t : ℚ) * 100 * (3 / 2 ^ 53) := by
  have htq : (0 : ℚ) < (t : ℚ) := by exact_mod_cast ht
  have hq0 : (0 : ℚ) ≤ (c : ℚ) / (t : ℚ) := by positivity
  have h53 : (2 : ℚ) ^ 53 = 9007199254740992 := by norm_num
  have hn1 := toDouble_nonneg _ hq0
  have hn2 := toDouble_nonneg (toDouble ((c : ℚ) / (t : ℚ)) * 100) (by positivity)
  refine ⟨hn2, ?_⟩
  by_cases hc : c = 0
  · subst hc
    simp [toDouble_zero]
  · have hcq : (0 : ℚ) < (c : ℚ) := by exact_mod_cast Nat.pos_of_ne_zero hc
    have hq : (0 : ℚ) < (c : ℚ) / (t : ℚ) := by positivity
    have e1 := toDouble_abs_sub_le _ hq
    rw [abs_le] at e1
    by_cases hz : toDouble ((c : ℚ) / (t : ℚ)) = 0
    · rw [hz] at e1
      rw [hz, zero_mul, toDouble_zero, h53]
      rw [h53] at e1
      rw [abs_le]
      constructor <;> nlinarith [e1.1, e1.2]
    · have hpos1 : (0 : ℚ) < toDouble ((c : ℚ) / (t : ℚ)) := lt_of_le_of_ne hn1 (Ne.symm hz)
      have e2 := toDouble_abs_sub_le (toDouble ((c : ℚ) / (t : ℚ)) * 100) (by positivity)
      rw [abs_le] at e2
      rw [h53] at e1 e2 ⊢
      rw [abs_le]
      constructor <;> nlinarith [e1.1, e1.2, e2.1, e2.2]

/-! ## Sums of doubles do not fall below their terms -/

theorem binade_lt (y : ℚ) (h : 0 < y) : y < (2 : ℚ) ^ (binade y + 1) := by
  have habs : |y| = y := abs_of_pos h
  unfold binade
  split_ifs with hc
  · have hnum : 0 < y.num := Rat.num_pos.mpr h
    have hden : 0 < y.den := y.den_pos
    have hna : 1 ≤ y.num.natAbs := Int.natAbs_pos.mpr (ne_of_gt hnum)
    obtain ⟨_, ha⟩ := log2F_spec y.num.natAbs y.num.natAbs hna (le_refl _)
    obtain ⟨hb, _⟩ := log2F_spec y.den y.den hden (le_refl _)
    have hyq : y = (y.num.natAbs : ℚ) / (y.den : ℚ) := by
      have hcast : ((y.num.natAbs : ℕ) : ℚ) = (y.num : ℚ) := by
        rw [Nat.cast_natAbs, abs_of_pos hnum]
      rw [hcast]
      exact (Rat.num_div_den y).symm
    have hpow : (2 : ℚ) ^ ((log2F y.num.natAbs y.num.natAbs : ℤ) - (log2F y.den y.den : ℤ) + 1) =
        (2 : ℚ) ^ (log2F y.num.natAbs y.num.natAbs + 1) / (2 : ℚ) ^ log2F y.den y.den := by
      have e : ((log2F y.num.natAbs y.num.natAbs : ℤ) - (log2F y.den y.den : ℤ) + 1) =
          ((log2F y.num.natAbs y.num.natAbs + 1 : ℕ) : ℤ) - ((log2F y.den y.den : ℕ) : ℤ) := by
        push_cast
        ring
      rw [e, zpow_sub₀ (by norm_num : (2 : ℚ) ≠ 0), zpow_natCast, zpow_natCast]
    rw [hpow]
    have haq : (y.num.natAbs : ℚ) < (2 : ℚ) ^ (log2F y.num.natAbs y.num.natAbs + 1) := by
      exact_mod_cast ha
    have hbq : (2 : ℚ) ^ log2F y.den y.den ≤ (y.den : ℚ) := by
      exact_mod_cast hb
    have hdq : (0 : ℚ) < (y.den : ℚ) := by exact_mod_cast hden
    have hpq : (0 : ℚ) < (2 : ℚ) ^ log2F y.den y.den := by positivity
    calc y = (y.num.natAbs : ℚ) / (y.den : ℚ) := hyq
      _ ≤ (y.num.natAbs : ℚ) / (2 : ℚ) ^ log2F y.den y.den :=
          div_le_div_of_nonneg_left (by positivity) hpq hbq
      _ < (2 : ℚ) ^ (log2F y.num.natAbs y.num.natAbs + 1) / (2 : ℚ) ^ log2F y.den y.den :=
          div_lt_div_of_pos_right haq hpq
  · rw [habs] at hc
    rw [sub_add_cancel]
    exact lt_of_not_le hc

theorem floor_le_roundHalfEven (x : ℚ) : ⌊x⌋ ≤ roundHalfEven x := by
  unfold roundHalfEven
  split_ifs <;> omega

/-- Rounding a natural beyond `2 ^ 53` to a double does not take it below a
smaller natural that a double can hold. -/
theorem le_toDouble_of_le (x v : Nat) (hx : 9007199254740992 < x) (hv : v ≤ x)
    (hrep : v ≤ 9007199254740992 ∨ toDouble (v : ℚ) = (v : ℚ)) :
    (v : ℚ) ≤ toDouble (x : ℚ) := by
  have hxq : (9007199254740992 : ℚ) < (x : ℚ) := by exact_mod_cast hx
  have hx0 : (0 : ℚ) < (x : ℚ) := by linarith
  have hxne : (x : ℚ) ≠ 0 := ne_of_gt hx0
  have h53 : (2 : ℚ) ^ (53 : ℤ) = 9007199254740992 := by norm_num
  have h52 : (2 : ℚ) ^ (52 : ℤ) = 4503599627370496 := by norm_num
  have hlo := two_zpow_binade_le (x : ℚ) hx0
  have hhi := binade_lt (x : ℚ) hx0
  have hb53 : 53 ≤ binade (x : ℚ) := by
    have h1 : (2 : ℚ) ^ (53 : ℤ) < (2 : ℚ) ^ (binade (x : ℚ) + 1) := by
      rw [h53]
      exact lt_trans hxq hhi
    have h2 := (zpow_lt_zpow_iff_right₀ (by norm_num : (1 : ℚ) < 2)).mp h1
    omega
  have hp : (0 : ℚ) < 2 ^ (binade (x : ℚ) - 52) := zpow_pos (by norm_num) _
  have hsplit : (2 : ℚ) ^ binade (x : ℚ) = 2 ^ (binade (x : ℚ) - 52) * 2 ^ (52 : ℤ) := by
    rw [← zpow_add₀ (by norm_num : (2 : ℚ) ≠ 0)]
    congr 1
    ring
  have hz52 : (4503599627370496 : ℚ) ≤ (x : ℚ) / 2 ^ (binade (x : ℚ) - 52) := by
    rw [le_div_iff₀ hp, ← h52, mul_comm, ← hsplit]
    exact hlo
  have hfl52 : (4503599627370496 : ℤ) ≤ ⌊(x : ℚ) / 2 ^ (binade (x : ℚ) - 52)⌋ := by
    rw [Int.le_floor]
    exact_mod_cast hz52
  have hrhe := floor_le_roundHalfEven ((x : ℚ) / 2 ^ (binade (x : ℚ) - 52))
  have htd : toDouble (x : ℚ) =
      (roundHalfEven ((x : ℚ) / 2 ^ (binade (x : ℚ) - 52)) : ℚ) * 2 ^ (binade (x : ℚ) - 52) := by
    simp only [toDouble, hxne, if_false]
  have hge : ((⌊(x : ℚ) / 2 ^ (binade (x : ℚ) - 52)⌋ : ℤ) : ℚ) * 2 ^ (binade (x : ℚ) - 52) ≤
      toDouble (x : ℚ) := by
    rw [htd]
    apply mul_le_mul_of_nonneg_right _ hp.le
    exact_mod_cast hrhe
  have hbig : (2 : ℚ) ^ binade (x : ℚ) ≤ toDouble (x : ℚ) := by
    refine le_trans ?_ hge
    rw [hsplit, mul_comm, h52]
    apply mul_le_mul_of_nonneg_right _ hp.le
    exact_mod_cast hfl52
  have hcase1 : ∀ w : Nat, w ≤ 9007199254740992 → (w : ℚ) ≤ toDouble (x : ℚ) := by
    intro w hw
    have hwq : (w : ℚ) ≤ 9007199254740992 := by exact_mod_cast hw
    have h2 : (9007199254740992 : ℚ) ≤ (2 : ℚ) ^ binade (x : ℚ) := by
      rw [← h53]
      exact zpow_le_zpow_right₀ (by norm_num) hb53
    linarith
  rcases hrep with hrep | hrep
  · exact hcase1 v hrep
  · by_cases hvs : v ≤ 9007199254740992
    · exact hcase1 v hvs
    · have hvq : (9007199254740992 : ℚ) < (v : ℚ) := by exact_mod_cast (not_le.mp hvs)
      have hv0 : (0 : ℚ) < (v : ℚ) := by linarith
      have hvne : (v : ℚ) ≠ 0 := ne_of_gt hv0
      have hvx : (v : ℚ) ≤ (x : ℚ) := by exact_mod_cast hv
      have hvlo := two_zpow_binade_le (v : ℚ) hv0
      have hvhi := binade_lt (v : ℚ) hv0
      by_cases hbb : binade (v : ℚ) < binade (x : ℚ)
      · have h1 : (2 : ℚ) ^ (binade (v : ℚ) + 1) ≤ (2 : ℚ) ^ binade (x : ℚ) :=
          zpow_le_zpow_right₀ (by norm_num) (by omega)
        linarith
      · have hle : (2 : ℚ) ^ binade (v : ℚ) < (2 : ℚ) ^ (binade (x : ℚ) + 1) :=
          lt_of_le_of_lt (le_trans hvlo hvx) hhi
        have h2 := (zpow_lt_zpow_iff_right₀ (by norm_num : (1 : ℚ) < 2)).mp hle
        have hbeq : binade (v : ℚ) = binade (x : ℚ) := by omega
        have hvd : (v : ℚ) =
            (roundHalfEven ((v : ℚ) / 2 ^ (binade (x : ℚ) - 52)) : ℚ) *
              2 ^ (binade (x : ℚ) - 52) := by
          have h3 := hrep
          simp only [toDouble, hvne, if_false, hbeq] at h3
          exact h3.symm
        have hm : ((roundHalfEven ((v : ℚ) / 2 ^ (binade (x : ℚ) - 52)) : ℤ) : ℚ) ≤
            (x : ℚ) / 2 ^ (binade (x : ℚ) - 52) := by
          rw [le_div_iff₀ hp, ← hvd]
          exact hvx
        have hm2 : roundHalfEven ((v : ℚ) / 2 ^ (binade (x : ℚ) - 52)) ≤
            ⌊(x : ℚ) / 2 ^ (binade (x : ℚ) - 52)⌋ := Int.le_floor.mpr hm
        have hm3 : ((roundHalfEven ((v : ℚ) / 2 ^ (binade (x : ℚ) - 52)) : ℤ) : ℚ) ≤
            ((⌊(x : ℚ) / 2 ^ (binade (x : ℚ) - 52)⌋ : ℤ) : ℚ) := by
          exact_mod_cast hm2
        calc (v : ℚ) = (roundHalfEven ((v : ℚ) / 2 ^ (binade (x : ℚ) - 52)) : ℚ) *
              2 ^ (binade (x : ℚ) - 52) := hvd
          _ ≤ ((⌊(x : ℚ) / 2 ^ (binade (x : ℚ) - 52)⌋ : ℤ) : ℚ) * 2 ^ (binade (x : ℚ) - 52) :=
              mul_le_mul_of_nonneg_right hm3 hp.le
          _ ≤ toDouble (x : ℚ) := hge

/-- The double sum of two naturals is at least any natural below their exact
sum that a double can hold. -/
theorem le_numAdd_of_le (a b v : Nat) (hv : v ≤ a + b)
    (hrep : v ≤ 9007199254740992 ∨ toDouble (v : ℚ) = (v : ℚ)) : v ≤ numAdd a b := by
  unfold numAdd
  split_ifs with h
  · exact hv
  · have hx : 9007199254740992 < a + b := by omega
    have h1 := le_toDouble_of_le (a + b) v hx hv hrep
    have h2 : (v : ℤ) ≤ ⌊toDouble ((a + b : ℕ) : ℚ)⌋ := by
      rw [Int.le_floor]
      exact_mod_cast h1
    omega


/-! ## Doubles are fixed by rounding -/

theorem binade_eq (y : ℚ) (h : 0 < y) (k : ℤ) (h1 : (2 : ℚ) ^ k ≤ y)
    (h2 : y < (2 : ℚ) ^ (k + 1)) : binade y = k := by
  have a := two_zpow_binade_le y h
  have b := binade_lt y h
  have c1 : (2 : ℚ) ^ binade y < (2 : ℚ) ^ (k + 1) := lt_of_le_of_lt a h2
  have c2 : (2 : ℚ) ^ k < (2 : ℚ) ^ (binade y + 1) := lt_of_le_of_lt h1 b
  have d1 := (zpow_lt_zpow_iff_right₀ (by norm_num : (1 : ℚ) < 2)).mp c1
  have d2 := (zpow_lt_zpow_iff_right₀ (by norm_num : (1 : ℚ) < 2)).mp c2
  omega

theorem roundHalfEven_intCast (n : ℤ) : roundHalfEven (n : ℚ) = n := by
  simp [roundHalfEven]

theorem roundHalfEven_le_floor_add_one (x : ℚ) : roundHalfEven x ≤ ⌊x⌋ + 1 := by
  unfold roundHalfEven
  split_ifs <;> omega

/-- A double is a 53-bit integer times a power of two: the rounded mantissa
lies between `2 ^ 52` and `2 ^ 53`. -/
theorem toDouble_eq_mantissa (y : ℚ) (h : 0 < y) :
    ∃ m : ℤ, 4503599627370496 ≤ m ∧ m ≤ 9007199254740992 ∧
      toDouble y = (m : ℚ) * 2 ^ (binade y - 52) := by
  have hne : y ≠ 0 := ne_of_gt h
  have h52 : (2 : ℚ) ^ (52 : ℤ) = 4503599627370496 := by norm_num
  have hp : (0 : ℚ) < 2 ^ (binade y - 52) := zpow_pos (by norm_num) _
  have hlo := two_zpow_binade_le y h
  have hhi := binade_lt y h
  have hsplit : (2 : ℚ) ^ binade y = 2 ^ (binade y - 52) * 2 ^ (52 : ℤ) := by
    rw [← zpow_add₀ (by norm_num : (2 : ℚ) ≠ 0)]
    congr 1
    ring
  have hsplit2 : (2 : ℚ) ^ (binade y + 1) = 2 ^ (binade y - 52) * (2 * 2 ^ (52 : ℤ)) := by
    rw [zpow_add_one₀ (by norm_num : (2 : ℚ) ≠ 0), hsplit]
    ring
  have hz1 : (4503599627370496 : ℚ) ≤ y / 2 ^ (binade y - 52) := by
    rw [le_div_iff₀ hp, ← h52, mul_comm, ← hsplit]
    exact hlo
  have hz2 : y / 2 ^ (binade y - 52) < 9007199254740992 := by
    rw [div_lt_iff₀ hp]
    have e : (9007199254740992 : ℚ) * 2 ^ (binade y - 52) = (2 : ℚ) ^ (binade y + 1) := by
      rw [hsplit2, h52]
      ring
    rw [e]
    exact hhi
  have hf1 : (4503599627370496 : ℤ) ≤ ⌊y / 2 ^ (binade y - 52)⌋ := by
    rw [Int.le_floor]
    exact_mod_cast hz1
  have hf2 : ⌊y / 2 ^ (binade y - 52)⌋ < (9007199254740992 : ℤ) := by
    rw [Int.floor_lt]
    exact_mod_cast hz2
  have r1 := floor_le_roundHalfEven (y / 2 ^ (binade y - 52))
  have r2 := roundHalfEven_le_floor_add_one (y / 2 ^ (binade y - 52))
  refine ⟨roundHalfEven (y / 2 ^ (binade y - 52)), by omega, by omega, ?_⟩
  simp only [toDouble, hne, if_false]

/-- A 53-bit integer times a power of two is fixed by rounding to a double. -/
theorem toDouble_scaled (m k : ℤ) (h1 : 4503599627370496 ≤ m) (h2 : m < 9007199254740992) :
    toDouble ((m : ℚ) * 2 ^ k) = (m : ℚ) * 2 ^ k := by
  have h52 : (2 : ℚ) ^ (52 : ℤ) = 4503599627370496 := by norm_num
  have hp : (0 : ℚ) < 2 ^ k := zpow_pos (by norm_num) _
  have hm1 : (4503599627370496 : ℚ) ≤ (m : ℚ) := by exact_mod_cast h1
  have hm2 : (m : ℚ) < 9007199254740992 := by exact_mod_cast h2
  have hy : (0 : ℚ) < (m : ℚ) * 2 ^ k := by positivity
  have hb : binade ((m : ℚ) * 2 ^ k) = 52 + k := by
    apply binade_eq _ hy
    · rw [zpow_add₀ (by norm_num : (2 : ℚ) ≠ 0), h52]
      exact mul_le_mul_of_nonneg_right hm1 hp.le
    · have e : (2 : ℚ) ^ (52 + k + 1) = 9007199254740992 * 2 ^ k := by
        rw [zpow_add_one₀ (by norm_num : (2 : ℚ) ≠ 0), zpow_add₀ (by norm_num : (2 : ℚ) ≠ 0), h52]
        ring
      rw [e]
      exact mul_lt_mul_of_pos_right hm2 hp
  have he : (52 + k - 52 : ℤ) = k := by ring
  simp only [toDouble, ne_of_gt hy, if_false, hb, he]
  rw [mul_div_assoc, div_self (ne_of_gt hp), mul_one, roundHalfEven_intCast]

theorem toDouble_idem (y : ℚ) (h : 0 < y) : toDouble (toDouble y) = toDouble y := by
  obtain ⟨m, h1, h2, he⟩ := toDouble_eq_mantissa y h
  rw [he]
  by_cases hm : m < 9007199254740992
  · exact toDouble_scaled m _ h1 hm
  · have hm2 : m = 9007199254740992 := by omega
    subst hm2
    have e : ((9007199254740992 : ℤ) : ℚ) * 2 ^ (binade y - 52) =
        ((4503599627370496 : ℤ) : ℚ) * 2 ^ (binade y - 52 + 1) := by
      rw [zpow_add_one₀ (by norm_num : (2 : ℚ) ≠ 0)]
      push_cast
      ring
    rw [e]
    exact toDouble_scaled _ _ (by norm_num) (by norm_num)

/-- Beyond `2 ^ 53` the double nearest to a natural number is a natural
number. -/
theorem toDouble_nat_big (x : Nat) (hx : 9007199254740992 < x) :
    ∃ N : Nat, toDouble (x : ℚ) = (N : ℚ) := by
  have hxq : (9007199254740992 : ℚ) < (x : ℚ) := by exact_mod_cast hx
  have hx0 : (0 : ℚ) < (x : ℚ) := by linarith
  have h53 : (2 : ℚ) ^ (53 : ℤ) = 9007199254740992 := by norm_num
  have hhi := binade_lt (x : ℚ) hx0
  have hb53 : 53 ≤ binade (x : ℚ) := by
    have h1 : (2 : ℚ) ^ (53 : ℤ) < (2 : ℚ) ^ (binade (x : ℚ) + 1) := by
      rw [h53]
      exact lt_trans hxq hhi
    have h2 := (zpow_lt_zpow_iff_right₀ (by norm_num : (1 : ℚ) < 2)).mp h1
    omega
  obtain ⟨m, h1, _, he⟩ := toDouble_eq_mantissa (x : ℚ) hx0
  refine ⟨m.toNat * 2 ^ (binade (x : ℚ) - 52).toNat, ?_⟩
  have hm : ((m.toNat : ℕ) : ℤ) = m := Int.toNat_of_nonneg (by omega)
  have hk : (((binade (x : ℚ) - 52).toNat : ℕ) : ℤ) = binade (x : ℚ) - 52 :=
    Int.toNat_of_nonneg (by omega)
  have hmq : ((m.toNat : ℕ) : ℚ) = (m : ℚ) := by exact_mod_cast congrArg (fun z : ℤ => (z : ℚ)) hm
  rw [he, Nat.cast_mul, Nat.cast_pow, hmq, ← zpow_natCast, hk]
  norm_num

theorem numAdd_cast (a b : Nat) (h : 9007199254740992 < a + b) :
    ((numAdd a b : ℕ) : ℚ) = toDouble ((a + b : ℕ) : ℚ) := by
  obtain ⟨N, hN⟩ := toDouble_nat_big (a + b) h
  have hn : numAdd a b = N := by
    unfold numAdd
    rw [if_neg (by omega), hN]
    simp
  rw [hn, hN]

/-- The double sum of two naturals is a natural that a double can hold. -/
theorem rep_numAdd (a b : Nat) :
    numAdd a b ≤ 9007199254740992 ∨ toDouble ((numAdd a b : ℕ) : ℚ) = ((numAdd a b : ℕ) : ℚ) := by
  by_cases h : a + b ≤ 9007199254740992
  · left
    rw [numAdd_of_le a b h]
    exact h
  · right
    have h2 : 9007199254740992 < a + b := by omega
    have hpos : (0 : ℚ) < ((a + b : ℕ) : ℚ) := by
      have : (0 : ℕ) < a + b := by omega
      exact_mod_cast this
    rw [numAdd_cast a b h2]
    exact toDouble_idem _ hpos

theorem numAdd_bounds (a b : Nat) :
    ((a + b : ℕ) : ℚ) * (1 - 1 / 2 ^ 53) ≤ ((numAdd a b : ℕ) : ℚ) ∧
      ((numAdd a b : ℕ) : ℚ) ≤ ((a + b : ℕ) : ℚ) * (1 + 1 / 2 ^ 53) := by
  have h0 : (0 : ℚ) ≤ ((a + b : ℕ) : ℚ) := Nat.cast_nonneg _
  by_cases h : a + b ≤ 9007199254740992
  · rw [numAdd_of_le a b h]
    constructor <;> nlinarith [h0]
  · have h2 : 9007199254740992 < a + b := by omega
    have hpos : (0 : ℚ) < ((a + b : ℕ) : ℚ) := by
      have : (0 : ℕ) < a + b := by omega
      exact_mod_cast this
    rw [numAdd_cast a b h2]
    have e := toDouble_abs_sub_le _ hpos
    rw [abs_le] at e
    constructor <;> linarith [e.1, e.2]

theorem le_numAdd_left (a b : Nat)
    (hrep : a ≤ 9007199254740992 ∨ toDouble (a : ℚ) = (a : ℚ)) : a ≤ numAdd a b :=
  le_numAdd_of_le a b a (by omega) hrep

theorem foldl_jsAdd_map_num (ns : List Nat) (acc : Nat) :
    (ns.map JsVal.num).foldl (fun a b => jsAdd a b) (JsVal.num acc) =
      JsVal.num (ns.foldl numAdd acc) := by
  induction ns generalizing acc with
  | nil => rfl
  | cons n rest ih =>
    rw [List.map_cons, List.foldl_cons, List.foldl_cons, jsAdd_num_num]
    exact ih _

/-- A left-to-right double sum is at least each of its terms that a double can
hold. -/
theorem le_foldl_numAdd_of_mem (ns : List Nat) (acc v : Nat)
    (hrep : v ≤ 9007199254740992 ∨ toDouble (v : ℚ) = (v : ℚ))
    (hv : v ≤ acc ∨ v ∈ ns) : v ≤ ns.foldl numAdd acc := by
  induction ns generalizing acc with
  | nil =>
    rcases hv with hv | hv
    · exact hv
    · simp at hv
  | cons n rest ih =>
    rw [List.foldl_cons]
    apply ih
    rcases hv with hv | hv
    · exact Or.inl (le_numAdd_of_le acc n v (by omega) hrep)
    · rcases List.mem_cons.mp hv with hv | hv
      · exact Or.inl (le_numAdd_of_le acc n v (by omega) hrep)
      · exact Or.inr hv

/-- A left-to-right double sum, started from a double, is at least the exact
sum of any sublist of its terms, up to one rounding per term of the sublist. -/
theorem foldl_numAdd_ge_sublist (ns : List Nat) (acc : Nat)
    (hacc : acc ≤ 9007199254740992 ∨ toDouble (acc : ℚ) = (acc : ℚ))
    (M : List Nat) (hM : M.Sublist ns) (hlen : (M.length : ℚ) ≤ 2 ^ 53) :
    ((acc + M.sum : ℕ) : ℚ) * (1 - (M.length : ℚ) / 2 ^ 53) ≤
      ((ns.foldl numAdd acc : ℕ) : ℚ) := by
  induction ns generalizing acc M with
  | nil =>
    have hM2 : M = [] := List.sublist_nil.mp hM
    subst hM2
    simp
  | cons n rest ih =>
    rw [List.foldl_cons]
    have hb := numAdd_bounds acc n
    have h53 : (2 : ℚ) ^ 53 = 9007199254740992 := by norm_num
    rcases List.sublist_cons_iff.mp hM with hM2 | ⟨M2, rfl, hM2⟩
    · have h := ih (numAdd acc n) (rep_numAdd acc n) M hM2 hlen
      refine le_trans ?_ h
      have hl := le_numAdd_left acc n hacc
      have hlq : ((acc + M.sum : ℕ) : ℚ) ≤ ((numAdd acc n + M.sum : ℕ) : ℚ) := by
        have : acc + M.sum ≤ numAdd acc n + M.sum := by omega
        exact_mod_cast this
      have hnn : (0 : ℚ) ≤ 1 - (M.length : ℚ) / 2 ^ 53 := by
        rw [sub_nonneg, div_le_one (by positivity)]
        exact hlen
      exact mul_le_mul_of_nonneg_right hlq hnn
    · have hlen2 : ((M2.length : ℕ) : ℚ) ≤ 2 ^ 53 := by
        have : ((M2.length : ℕ) : ℚ) ≤ (((n :: M2).length : ℕ) : ℚ) := by
          simp
        exact le_trans this hlen
      have h := ih (numAdd acc n) (rep_numAdd acc n) M2 hM2 hlen2
      refine le_trans ?_ h
      simp only [List.sum_cons, List.length_cons, Nat.cast_add, Nat.cast_one] at hb hlen ⊢
      have hnn : (0 : ℚ) ≤ 1 - (M2.length : ℚ) / 2 ^ 53 := by
        rw [sub_nonneg, div_le_one (by positivity)]
        exact hlen2
      have ha : (0 : ℚ) ≤ (acc : ℚ) := Nat.cast_nonneg _
      have hn : (0 : ℚ) ≤ (n : ℚ) := Nat.cast_nonneg _
      have hs : (0 : ℚ) ≤ (M2.sum : ℚ) := Nat.cast_nonneg _
      have hl : (0 : ℚ) ≤ (M2.length : ℚ) := Nat.cast_nonneg _
      rw [h53] at hnn hb ⊢
      have step1 : ((acc : ℚ) + (n : ℚ) + (M2.sum : ℚ)) * (1 - 1 / 9007199254740992) ≤
          (numAdd acc n : ℚ) + (M2.sum : ℚ) := by nlinarith [hb.1]
      have step2 := mul_le_mul_of_nonneg_right step1 hnn
      refine le_trans ?_ step2
      have e : ((acc : ℚ) + ((n : ℚ) + (M2.sum : ℚ))) *
            (1 - ((M2.length : ℚ) + 1) / 9007199254740992) ≤
          ((acc : ℚ) + (n : ℚ) + (M2.sum : ℚ)) * (1 - 1 / 9007199254740992) *
            (1 - (M2.length : ℚ) / 9007199254740992) := by
        have hS : (0 : ℚ) ≤ (acc : ℚ) + (n : ℚ) + (M2.sum : ℚ) := by positivity
        have hq : (0 : ℚ) ≤ ((acc : ℚ) + (n : ℚ) + (M2.sum : ℚ)) * (M2.length : ℚ) :=
          mul_nonneg hS hl
        nlinarith [hq]
      exact e

/-- A left-to-right double sum exceeds the exact sum by at most one rounding
per term. -/
theorem foldl_numAdd_le (ns : List Nat) (acc : Nat) :
    ((ns.foldl numAdd acc : ℕ) : ℚ) * (1 - (ns.length : ℚ) / 2 ^ 53) ≤
      ((acc + ns.sum : ℕ) : ℚ) := by
  induction ns generalizing acc with
  | nil => simp
  | cons n rest ih =>
    rw [List.foldl_cons]
    have hb := numAdd_bounds acc n
    have h := ih (numAdd acc n)
    have h53 : (2 : ℚ) ^ 53 = 9007199254740992 := by norm_num
    simp only [List.sum_cons, List.length_cons, Nat.cast_add, Nat.cast_one] at hb h ⊢
    rw [h53] at hb h ⊢
    have hf : (0 : ℚ) ≤ ((rest.foldl numAdd (numAdd acc n) : ℕ) : ℚ) := Nat.cast_nonneg _
    have hs : (0 : ℚ) ≤ (rest.sum : ℚ) := Nat.cast_nonneg _
    have hl : (0 : ℚ) ≤ (rest.length : ℚ) := Nat.cast_nonneg _
    have ha : (0 : ℚ) ≤ (acc : ℚ) + (n : ℚ) := by positivity
    have h1 : ((rest.foldl numAdd (numAdd acc n) : ℕ) : ℚ) *
        (1 - (rest.length : ℚ) / 9007199254740992) ≤
        ((acc : ℚ) + (n : ℚ) + (rest.sum : ℚ)) * (1 + 1 / 9007199254740992) := by
      nlinarith [hb.2, h]
    have h2 : ((rest.foldl numAdd (numAdd acc n) : ℕ) : ℚ) *
        (1 - (rest.length : ℚ) / 9007199254740992) * (1 - 1 / 9007199254740992) ≤
        ((acc : ℚ) + (n : ℚ) + (rest.sum : ℚ)) * (1 + 1 / 9007199254740992) *
          (1 - 1 / 9007199254740992) :=
      mul_le_mul_of_nonneg_right h1 (by norm_num)
    have hq : (0 : ℚ) ≤ ((rest.foldl numAdd (numAdd acc n) : ℕ) : ℚ) * (rest.length : ℚ) :=
      mul_nonneg hf hl
    nlinarith [h2, hq, ha, hs]

/-! ## Lemmas on counts and totals -/

theorem doubleVotes_spec (poll : Poll) (h : doubleVotes poll = true) :
    ∀ v ∈ poll.votes.values, ∃ n, v = JsVal.num n ∧
      (n ≤ 9007199254740992 ∨ toDouble (n : ℚ) = (n : ℚ)) := by
  intro v hv
  simp only [doubleVotes, Bool.and_eq_true, List.all_eq_true] at h
  have hv2 := h.1 v hv
  cases v with
  | num n =>
    refine ⟨n, rfl, ?_⟩
    simpa using hv2
  | nan => simp at hv2
  | str s => simp at hv2
  | native name => simp at hv2

theorem doubleVotes_isNum (poll : Poll) (h : doubleVotes poll = true) :
    ∀ v ∈ poll.votes.values, ∃ n, v = JsVal.num n := by
  intro v hv
  obtain ⟨n, hn, _⟩ := doubleVotes_spec poll h v hv
  exact ⟨n, hn⟩

theorem values_eq_map_num (vs : List JsVal) (h : ∀ v ∈ vs, ∃ n, v = JsVal.num n) :
    vs = (vs.map JsVal.toNat).map JsVal.num := by
  induction vs with
  | nil => rfl
  | cons v rest ih =>
    obtain ⟨n, hn⟩ := h v (List.mem_cons_self _ _)
    subst hn
    rw [List.map_cons, List.map_cons, ← ih fun w hw => h w (List.mem_cons_of_mem _ hw)]
    rfl

theorem sumNums_eq_some (vs : List JsVal) (n : Nat) (h : sumNums vs = some n) :
    (∀ v ∈ vs, ∃ m, v = JsVal.num m) ∧ (vs.map JsVal.toNat).sum = n := by
  induction vs generalizing n with
  | nil =>
    simp only [sumNums, Option.some.injEq] at h
    simp [h]
  | cons v rest ih =>
    cases v with
    | num m =>
      cases hr : sumNums rest with
      | none => simp [sumNums, JsVal.asNat, hr] at h
      | some r =>
        simp only [sumNums, JsVal.asNat, hr, Option.some.injEq] at h
        obtain ⟨h1, h2⟩ := ih r hr
        refine ⟨?_, ?_⟩
        · intro w hw
          rcases List.mem_cons.mp hw with hw | hw
          · exact ⟨m, hw⟩
          · exact h1 w hw
        · simp only [List.map_cons, List.sum_cons, h2]
          rw [← h]
          rfl
    | nan => simp [sumNums, JsVal.asNat] at h
    | str s => simp [sumNums, JsVal.asNat] at h
    | native name => simp [sumNums, JsVal.asNat] at h

/-- What `safeCounts` says: every value is a number and the exact sum of the
values is at most `2 ^ 53`. -/
theorem safeCounts_spec (poll : Poll) (h : safeCounts poll = true) :
    (∀ v ∈ poll.votes.values, ∃ n, v = JsVal.num n) ∧
      (poll.votes.values.map JsVal.toNat).sum ≤ 9007199254740992 := by
  unfold safeCounts at h
  cases he : exactTotal poll with
  | none => simp [he] at h
  | some n =>
    simp only [he, decide_eq_true_eq] at h
    obtain ⟨h1, h2⟩ := sumNums_eq_some _ n he
    exact ⟨h1, h2 ▸ h⟩

/-- With safe counts the total computed by `calculateResults` is the exact
sum of the values. -/
theorem totalVotes_eq_exact (poll : Poll) (h : safeCounts poll = true) :
    (calculateResults poll).totalVotes =
      JsVal.num (poll.votes.values.map JsVal.toNat).sum := by
  obtain ⟨h1, h2⟩ := safeCounts_spec poll h
  have hv := values_eq_map_num poll.votes.values h1
  have hf := foldl_jsAdd_nums (poll.votes.values.map JsVal.toNat) 0 (by omega)
  rw [← hv, Nat.zero_add] at hf
  exact hf

/-- The count `calculateResults` reports for an option that is an own key, or
is not the name of a member of `Object.prototype`, of an object of numbers:
the number under that key, `0` without one. -/
theorem count_eq_num (poll : Poll) (o : String)
    (hnum : ∀ v ∈ poll.votes.values, ∃ n, v = JsVal.num n)
    (ho : o ∈ poll.votes.keys ∨ o ∉ protoNames) :
    orZero (poll.votes.read o) =
      JsVal.num (((getProp poll.votes.entries o).map JsVal.toNat).getD 0) := by
  cases hg : getProp poll.votes.entries o with
  | some v =>
    have hmem : v ∈ poll.votes.values :=
      List.mem_map_of_mem Prod.snd (mem_of_getProp_eq_some _ _ _ hg)
    obtain ⟨n, hn⟩ := hnum v hmem
    subst hn
    rw [VoteMap.read_of_get _ o _ hg]
    by_cases h0 : n = 0
    · subst h0
      rfl
    · simp [orZero, JsVal.truthy, h0, JsVal.toNat, JsVal.asNat]
  | none =>
    have hnk : o ∉ poll.votes.keys := by
      intro hk
      obtain ⟨v, hv, _⟩ := getProp_of_mem_keys _ o hk
      rw [hg] at hv
      exact Option.noConfusion hv
    have hnp : o ∉ protoNames := by
      rcases ho with ho | ho
      · exact absurd ho hnk
      · exact ho
    rw [VoteMap.read_of_absent _ o hnk hnp]
    rfl

/-- Reading a key of an object with distinct keys picks out the one entry
under that key. -/
theorem getProp_toNat_eq_sum (es : List (String × JsVal)) (key : String)
    (h : (es.map Prod.fst).Nodup) :
    ((getProp es key).map JsVal.toNat).getD 0 =
      (es.map fun kv => if kv.1 = key then kv.2.toNat else 0).sum := by
  induction es with
  | nil => rfl
  | cons e rest ih =>
    obtain ⟨k, w⟩ := e
    rw [List.map_cons, List.nodup_cons] at h
    by_cases hk : k = key
    · subst hk
      have hz : (rest.map fun kv => if kv.1 = k then kv.2.toNat else 0).sum = 0 := by
        rw [← ih h.2, getProp_eq_none_of_not_mem rest k h.1]
        rfl
      simp [getProp, hz]
    · simp [getProp, hk, ih h.2]

/-- The counts read off along any option list add up to the entries of the
object weighted by how often each key is listed. -/
theorem sum_getProp_eq_weighted (es : List (String × JsVal)) (h : (es.map Prod.fst).Nodup)
    (options : List String) :
    (options.map fun o => ((getProp es o).map JsVal.toNat).getD 0).sum =
      (es.map fun kv => options.count kv.1 * kv.2.toNat).sum := by
  induction options with
  | nil => simp
  | cons o os ih =>
    rw [List.map_cons, List.sum_cons, ih, getProp_toNat_eq_sum es o h, ← List.sum_map_add]
    congr 1
    apply List.map_congr_left
    intro kv _
    by_cases hk : kv.1 = o
    · subst hk
      simp [List.count_cons, Nat.add_mul, Nat.add_comm]
    · have hk2 : ¬ o = kv.1 := fun e => hk e.symm
      simp [List.count_cons, hk, hk2]

/-- The counts of the aggregate, for an object of numbers whose declared
options all read own properties. -/
theorem counts_eq_map_num (poll : Poll)
    (hnum : ∀ v ∈ poll.votes.values, ∃ n, v = JsVal.num n) (hown : OptionsReadOwn poll) :
    ((calculateResults poll).results.map fun r => r.count) =
      (poll.options.map fun o =>
        ((getProp poll.votes.entries o).map JsVal.toNat).getD 0).map JsVal.num := by
  simp only [calculateResults, List.map_map]
  apply List.map_congr_left
  intro o ho
  exact count_eq_num poll o hnum (hown o ho)

/-- With safe counts, every key declared exactly once and every declared
option reading an own property, the counts add up to the total. -/
theorem sumCounts_eq_total_of_count_one (poll : Poll) (hsafe : safeCounts poll = true)
    (hown : OptionsReadOwn poll) (h : ∀ k ∈ poll.votes.keys, poll.options.count k = 1) :
    (sumCounts poll).map JsVal.num = some (calculateResults poll).totalVotes := by
  obtain ⟨hnum, _⟩ := safeCounts_spec poll hsafe
  rw [sumCounts, counts_eq_map_num poll hnum hown, sumNums_map_num, totalVotes_eq_exact poll hsafe,
    sum_getProp_eq_weighted _ poll.votes.nodupKeys, Option.map_some']
  congr 2
  simp only [VoteMap.values, List.map_map]
  congr 1
  apply List.map_congr_left
  intro kv hkv
  have hk : kv.1 ∈ poll.votes.keys := List.mem_map_of_mem Prod.fst hkv
  simp [h kv.1 hk]

/-! ## Lemmas on percentages -/

/-- The rounded value is within one half of the value rounded. -/
theorem round_bounds (x : ℚ) :
    (Math.round x : ℚ) - 1 / 2 ≤ x ∧ x < (Math.round x : ℚ) + 1 / 2 := by
  have h1 := Int.floor_le (x + 1 / 2)
  have h2 := Int.lt_floor_add_one (x + 1 / 2)
  simp only [Math.round]
  constructor <;> linarith

theorem round_nonneg (x : ℚ) (h : 0 ≤ x) : 0 ≤ Math.round x := by
  simp only [Math.round]
  exact Int.floor_nonneg.mpr (by linarith)

theorem round_toNat_cast (x : ℚ) (h : 0 ≤ x) : (((Math.round x).toNat : ℕ) : ℚ) = Math.round x := by
  have h0 := round_nonneg x h
  have : (((Math.round x).toNat : ℕ) : ℤ) = Math.round x := Int.toNat_of_nonneg h0
  exact_mod_cast congrArg (fun z : ℤ => (z : ℚ)) this

theorem percentageOf_num (c t : Nat) :
    percentageOf (JsVal.num c) (JsVal.num t) =
      JsVal.num (Math.round (toDouble (toDouble ((c : ℚ) / (t : ℚ)) * 100))).toNat := rfl

/-- A left-to-right sum of numbers is a number. -/
theorem foldl_jsAdd_isNum (ns : List Nat) (acc : Nat) :
    ∃ t, (ns.map JsVal.num).foldl (fun a b => jsAdd a b) (JsVal.num acc) = JsVal.num t := by
  induction ns generalizing acc with
  | nil => exact ⟨acc, rfl⟩
  | cons n rest ih =>
    rw [List.map_cons, List.foldl_cons, jsAdd_num_num]
    exact ih _

theorem totalVotes_isNum (poll : Poll) (h : ∀ v ∈ poll.votes.values, ∃ n, v = JsVal.num n) :
    ∃ t, (calculateResults poll).totalVotes = JsVal.num t := by
  have hv := values_eq_map_num poll.votes.values h
  obtain ⟨t, ht⟩ := foldl_jsAdd_isNum (poll.votes.values.map JsVal.toNat) 0
  rw [← hv] at ht
  exact ⟨t, ht⟩

/-- The percentage of a share of a positive total is at most 100. -/
theorem percentage_le_hundred (c t : Nat) (hc : c ≤ t) (ht : 0 < t) :
    (Math.round (toDouble (toDouble ((c : ℚ) / (t : ℚ)) * 100))).toNat ≤ 100 := by
  obtain ⟨h0, herr⟩ := percentage_double_bounds c t ht
  have htq : (0 : ℚ) < (t : ℚ) := by exact_mod_cast ht
  have hcq : (c : ℚ) ≤ (t : ℚ) := by exact_mod_cast hc
  have hx0 : (0 : ℚ) ≤ (c : ℚ) / (t : ℚ) * 100 := by positivity
  have hx1 : (c : ℚ) / (t : ℚ) * 100 ≤ 100 := by
    have : (c : ℚ) / (t : ℚ) ≤ 1 := (div_le_one htq).mpr hcq
    linarith
  have h53 : (2 : ℚ) ^ 53 = 9007199254740992 := by norm_num
  rw [h53, abs_le] at herr
  have hd : toDouble (toDouble ((c : ℚ) / (t : ℚ)) * 100) + 1 / 2 < 101 := by nlinarith [herr.2]
  have hfl : Math.round (toDouble (toDouble ((c : ℚ) / (t : ℚ)) * 100)) < 101 := by
    simp only [Math.round]
    rw [Int.floor_lt]
    exact_mod_cast hd
  omega

/-- The percentage computed in doubles is within one half, plus the rounding
error of the doubles, of the exact percentage. -/
theorem percentage_abs_sub_le (c t : Nat) (ht : 0 < t) :
    |(((Math.round (toDouble (toDouble ((c : ℚ) / (t : ℚ)) * 100))).toNat : ℕ) : ℚ) -
        (c : ℚ) / (t : ℚ) * 100| ≤
      1 / 2 + (c : ℚ) / (t : ℚ) * 100 * (3 / 2 ^ 53) := by
  obtain ⟨h0, herr⟩ := percentage_double_bounds c t ht
  rw [round_toNat_cast _ h0]
  obtain ⟨r1, r2⟩ := round_bounds (toDouble (toDouble ((c : ℚ) / (t : ℚ)) * 100))
  rw [abs_le] at herr ⊢
  constructor <;> linarith [herr.1, herr.2]

/-- Along any option list the percentages add up to within half a point per
option, plus the rounding error of the doubles, of the exact percentages. -/
theorem sum_percentage_sub_le (cnt : String → ℕ) (t : Nat) (ht : 0 < t) (l : List String) :
    |(((l.map fun o =>
          (Math.round (toDouble (toDouble ((cnt o : ℚ) / (t : ℚ)) * 100))).toNat).sum : ℕ) : ℚ) -
        (((l.map cnt).sum : ℕ) : ℚ) / (t : ℚ) * 100| ≤
      (l.length : ℚ) / 2 + (((l.map cnt).sum : ℕ) : ℚ) / (t : ℚ) * 100 * (3 / 2 ^ 53) := by
  induction l with
  | nil => simp
  | cons o os ih =>
    simp only [List.map_cons, List.sum_cons, List.length_cons, Nat.cast_add, Nat.cast_one]
    have h1 := percentage_abs_sub_le (cnt o) t ht
    rw [abs_le] at h1 ih ⊢
    constructor
    · have e : -(((os.length : ℚ) + 1) / 2 +
          ((cnt o : ℚ) + (((os.map cnt).sum : ℕ) : ℚ)) / (t : ℚ) * 100 * (3 / 2 ^ 53)) =
          -(1 / 2 + (cnt o : ℚ) / (t : ℚ) * 100 * (3 / 2 ^ 53)) +
            -((os.length : ℚ) / 2 + (((os.map cnt).sum : ℕ) : ℚ) / (t : ℚ) * 100 * (3 / 2 ^ 53)) := by
        ring
      have e2 : ((cnt o : ℚ) + (((os.map cnt).sum : ℕ) : ℚ)) / (t : ℚ) * 100 =
          (cnt o : ℚ) / (t : ℚ) * 100 + (((os.map cnt).sum : ℕ) : ℚ) / (t : ℚ) * 100 := by ring
      rw [e, e2]
      linarith [h1.1, ih.1]
    · have e : ((os.length : ℚ) + 1) / 2 +
          ((cnt o : ℚ) + (((os.map cnt).sum : ℕ) : ℚ)) / (t : ℚ) * 100 * (3 / 2 ^ 53) =
          (1 / 2 + (cnt o : ℚ) / (t : ℚ) * 100 * (3 / 2 ^ 53)) +
            ((os.length : ℚ) / 2 + (((os.map cnt).sum : ℕ) : ℚ) / (t : ℚ) * 100 * (3 / 2 ^ 53)) := by
        ring
      have e2 : ((cnt o : ℚ) + (((os.map cnt).sum : ℕ) : ℚ)) / (t : ℚ) * 100 =
          (cnt o : ℚ) / (t : ℚ) * 100 + (((os.map cnt).sum : ℕ) : ℚ) / (t : ℚ) * 100 := by ring
      rw [e, e2]
      linarith [h1.2, ih.2]

/-! ## Percentages of a double total -/

theorem percentageOf_num_num (c t : Nat) :
    percentageOf (JsVal.num c) (JsVal.num t) = JsVal.num (roundedPercent c t) := rfl

theorem roundedPercent_le (c t : Nat) (ht : 0 < t) :
    (roundedPercent c t : ℚ) ≤ 1 / 2 + (c : ℚ) / (t : ℚ) * 100 * (1 + 3 / 2 ^ 53) := by
  have h := percentage_abs_sub_le c t ht
  rw [abs_le] at h
  unfold roundedPercent
  linarith [h.2]

/-- An option with a percentage of at least 1 holds more than one part in 201
of the total. -/
theorem le_of_one_le_roundedPercent (c t : Nat) (ht : 0 < t) (hp : 1 ≤ roundedPercent c t) :
    t ≤ 201 * c := by
  have h := roundedPercent_le c t ht
  have hpq : (1 : ℚ) ≤ (roundedPercent c t : ℚ) := by exact_mod_cast hp
  have htq : (0 : ℚ) < (t : ℚ) := by exact_mod_cast ht
  have h53 : (2 : ℚ) ^ 53 = 9007199254740992 := by norm_num
  rw [h53] at h
  have hx : (1 : ℚ) / 2 ≤ (c : ℚ) / (t : ℚ) * 100 * (1 + 3 / 9007199254740992) := by linarith
  have hx2 : (c : ℚ) / (t : ℚ) * 100 * (1 + 3 / 9007199254740992) =
      (c : ℚ) * (100 * (1 + 3 / 9007199254740992)) / (t : ℚ) := by ring
  rw [hx2, le_div_iff₀ htq] at hx
  have hc : (0 : ℚ) ≤ (c : ℚ) := Nat.cast_nonneg _
  have hfin : (t : ℚ) ≤ 201 * (c : ℚ) := by nlinarith [hx, hc]
  exact_mod_cast hfin

theorem length_mul_le_sum (M : List Nat) (t : Nat) (h : ∀ v ∈ M, t ≤ 201 * v) :
    M.length * t ≤ 201 * M.sum := by
  induction M with
  | nil => simp
  | cons v rest ih =>
    have h1 := h v (List.mem_cons_self _ _)
    have h2 := ih fun w hw => h w (List.mem_cons_of_mem _ hw)
    simp only [List.length_cons, List.sum_cons]
    nlinarith [h1, h2]

/-- The terms with a percentage of at least 1 add up to at most the double
total, up to 300 roundings: there are fewer than 300 of them. -/
theorem bigTerms_sum_le (vs : List Nat) (ht : 0 < vs.foldl numAdd 0) :
    (((vs.filter fun v => decide (1 ≤ roundedPercent v (vs.foldl numAdd 0))).sum : ℕ) : ℚ) *
        (1 - 300 / 2 ^ 53) ≤ ((vs.foldl numAdd 0 : ℕ) : ℚ) := by
  have h53 : (2 : ℚ) ^ 53 = 9007199254740992 := by norm_num
  have htq : (0 : ℚ) < ((vs.foldl numAdd 0 : ℕ) : ℚ) := by exact_mod_cast ht
  have hsub : ((vs.filter fun v => decide (1 ≤ roundedPercent v (vs.foldl numAdd 0))).take
      300).Sublist vs := (List.take_sublist _ _).trans (List.filter_sublist _)
  have hlen : ((vs.filter fun v => decide (1 ≤ roundedPercent v (vs.foldl numAdd 0))).take
      300).length ≤ 300 := List.length_take_le _ _
  have hlenq : ((((vs.filter fun v => decide (1 ≤ roundedPercent v (vs.foldl numAdd 0))).take
      300).length : ℕ) : ℚ) ≤ 300 := by exact_mod_cast hlen
  have hF := foldl_numAdd_ge_sublist vs 0 (Or.inl (by norm_num)) _ hsub
    (le_trans hlenq (by norm_num))
  have hbig : ∀ v ∈ (vs.filter fun v => decide (1 ≤ roundedPercent v (vs.foldl numAdd 0))).take
      300, vs.foldl numAdd 0 ≤ 201 * v := by
    intro v hv
    have hv2 := List.mem_of_mem_take hv
    rw [List.mem_filter] at hv2
    exact le_of_one_le_roundedPercent v _ ht (by simpa using hv2.2)
  have hlm := length_mul_le_sum _ _ hbig
  have hlmq : ((((vs.filter fun v => decide (1 ≤ roundedPercent v (vs.foldl numAdd 0))).take
      300).length : ℕ) : ℚ) * ((vs.foldl numAdd 0 : ℕ) : ℚ) ≤
      201 * ((((vs.filter fun v => decide (1 ≤ roundedPercent v (vs.foldl numAdd 0))).take
        300).sum : ℕ) : ℚ) := by exact_mod_cast hlm
  rw [Nat.zero_add, h53] at hF
  have hs0 : (0 : ℚ) ≤ ((((vs.filter fun v =>
      decide (1 ≤ roundedPercent v (vs.foldl numAdd 0))).take 300).sum : ℕ) : ℚ) :=
    Nat.cast_nonneg _
  have hl0 : (0 : ℚ) ≤ ((((vs.filter fun v =>
      decide (1 ≤ roundedPercent v (vs.foldl numAdd 0))).take 300).length : ℕ) : ℚ) :=
    Nat.cast_nonneg _
  have hlt : ((vs.filter fun v => decide (1 ≤ roundedPercent v (vs.foldl numAdd 0))).take
      300).length < 300 := by
    by_contra hcon
    have h300 : ((vs.filter fun v => decide (1 ≤ roundedPercent v (vs.foldl numAdd 0))).take
        300).length = 300 := by omega
    rw [h300] at hF hlmq
    push_cast at hF hlmq
    nlinarith [hF, hlmq, htq, hs0]
  have hfl : (vs.filter fun v => decide (1 ≤ roundedPercent v (vs.foldl numAdd 0))).length <
      300 := by
    rw [List.length_take] at hlt
    omega
  have htake : (vs.filter fun v => decide (1 ≤ roundedPercent v (vs.foldl numAdd 0))).take 300 =
      vs.filter fun v => decide (1 ≤ roundedPercent v (vs.foldl numAdd 0)) :=
    List.take_of_length_le (by omega)
  rw [htake] at hF hlenq hs0 hl0
  rw [h53]
  nlinarith [hF, hlenq, hs0, hl0, mul_nonneg hs0 hl0]

theorem sum_map_ite_eq_sum_filter (vs : List Nat) (p : Nat → Bool) :
    (vs.map fun v => if p v = true then v else 0).sum = (vs.filter p).sum := by
  induction vs with
  | nil => rfl
  | cons v rest ih =>
    by_cases hp : p v = true
    · simp [List.filter_cons, hp, ih]
    · simp [List.filter_cons, hp, ih]

/-- Reading a key of an object with distinct keys and applying a function that
vanishes at 0 picks out the one entry under that key. -/
theorem apply_getProp_eq_sum (g : Nat → Nat) (hg : g 0 = 0) (es : List (String × JsVal))
    (key : String) (h : (es.map Prod.fst).Nodup) :
    g (((getProp es key).map JsVal.toNat).getD 0) =
      (es.map fun kv => if kv.1 = key then g kv.2.toNat else 0).sum := by
  induction es with
  | nil => simpa [getProp] using hg
  | cons e rest ih =>
    obtain ⟨k, w⟩ := e
    rw [List.map_cons, List.nodup_cons] at h
    by_cases hk : k = key
    · subst hk
      have hz : (rest.map fun kv => if kv.1 = k then g kv.2.toNat else 0).sum = 0 := by
        rw [← ih h.2, getProp_eq_none_of_not_mem rest k h.1]
        simpa using hg
      simp [getProp, hz]
    · simp [getProp, hk, ih h.2]

/-- Along an option list in which every key occurs once, a function of the
counts that vanishes at 0 adds up to its sum over the entries. -/
theorem sum_apply_getProp (g : Nat → Nat) (hg : g 0 = 0) (es : List (String × JsVal))
    (h : (es.map Prod.fst).Nodup) (options : List String)
    (hc : ∀ kv ∈ es, options.count kv.1 = 1) :
    (options.map fun o => g (((getProp es o).map JsVal.toNat).getD 0)).sum =
      (es.map fun kv => g kv.2.toNat).sum := by
  have hw : ∀ os : List String,
      (os.map fun o => g (((getProp es o).map JsVal.toNat).getD 0)).sum =
        (es.map fun kv => os.count kv.1 * g kv.2.toNat).sum := by
    intro os
    induction os with
    | nil => simp
    | cons o os ih =>
      rw [List.map_cons, List.sum_cons, ih, apply_getProp_eq_sum g hg es o h, ← List.sum_map_add]
      congr 1
      apply List.map_congr_left
      intro kv _
      by_cases hk : kv.1 = o
      · subst hk
        simp [List.count_cons, Nat.add_mul, Nat.add_comm]
      · have hk2 : ¬ o = kv.1 := fun e => hk e.symm
        simp [List.count_cons, hk, hk2]
  rw [hw]
  congr 1
  apply List.map_congr_left
  intro kv hkv
  simp [hc kv hkv]

/-- Along any option list the percentages add up to at most half a point per
option plus the exact percentages, with the rounding error of the doubles, of
the counts whose percentage is at least 1. -/
theorem sum_roundedPercent_le (cnt : String → ℕ) (t : Nat) (ht : 0 < t) (l : List String) :
    (((l.map fun o => roundedPercent (cnt o) t).sum : ℕ) : ℚ) ≤
      (l.length : ℚ) / 2 +
        (((l.map fun o =>
          if decide (1 ≤ roundedPercent (cnt o) t) = true then cnt o else 0).sum : ℕ) : ℚ) /
            (t : ℚ) * 100 * (1 + 3 / 2 ^ 53) := by
  induction l with
  | nil => simp
  | cons o os ih =>
    simp only [List.map_cons, List.sum_cons, List.length_cons, Nat.cast_add, Nat.cast_one]
    have htq : (0 : ℚ) < (t : ℚ) := by exact_mod_cast ht
    have hstep : (roundedPercent (cnt o) t : ℚ) ≤
        1 / 2 + ((if decide (1 ≤ roundedPercent (cnt o) t) = true then cnt o else 0 : ℕ) : ℚ) /
          (t : ℚ) * 100 * (1 + 3 / 2 ^ 53) := by
      by_cases hp : 1 ≤ roundedPercent (cnt o) t
      · simp only [hp, decide_True, if_true]
        exact roundedPercent_le _ _ ht
      · have h0 : roundedPercent (cnt o) t = 0 := by omega
        simp only [hp, decide_False, if_false, h0]
        norm_num
    have e : ((((if decide (1 ≤ roundedPercent (cnt o) t) = true then cnt o else 0 : ℕ) : ℚ) +
          (((os.map fun o =>
            if decide (1 ≤ roundedPercent (cnt o) t) = true then cnt o else 0).sum : ℕ) : ℚ)) /
            (t : ℚ) * 100 * (1 + 3 / 2 ^ 53)) =
        ((if decide (1 ≤ roundedPercent (cnt o) t) = true then cnt o else 0 : ℕ) : ℚ) /
            (t : ℚ) * 100 * (1 + 3 / 2 ^ 53) +
          (((os.map fun o =>
            if decide (1 ≤ roundedPercent (cnt o) t) = true then cnt o else 0).sum : ℕ) : ℚ) /
            (t : ℚ) * 100 * (1 + 3 / 2 ^ 53) := by ring
    rw [e]
    linarith [hstep, ih]

/-- A natural number whose distance from 100 is below `n / 2 + 1 / 2` is
within `n / 2` of it: twice the distance is an integer below `n + 1`. -/
theorem near_hundred_of_lt (s n : Nat) (h1 : (100 : ℚ) - (s : ℚ) < (n : ℚ) / 2 + 1 / 2)
    (h2 : (s : ℚ) - 100 < (n : ℚ) / 2 + 1 / 2) : |(s : ℚ) - 100| ≤ (n : ℚ) / 2 := by
  rw [abs_le]
  constructor
  · have h3 : (200 : ℚ) < 2 * (s : ℚ) + (n : ℚ) + 1 := by linarith
    have h4 : 200 < 2 * s + n + 1 := by exact_mod_cast h3
    have h5 : 200 ≤ 2 * s + n := by omega
    have h6 : (200 : ℚ) ≤ 2 * (s : ℚ) + (n : ℚ) := by exact_mod_cast h5
    linarith
  · have h3 : 2 * (s : ℚ) < (n : ℚ) + 201 := by linarith
    have h4 : 2 * s < n + 201 := by exact_mod_cast h3
    have h5 : 2 * s ≤ n + 200 := by omega
    have h6 : 2 * (s : ℚ) ≤ (n : ℚ) + 200 := by exact_mod_cast h5
    linarith

/-- The total computed by `calculateResults` for an object of numbers: the
left-to-right double sum of its values. -/
theorem totalVotes_eq_foldl (poll : Poll)
    (hnum : ∀ v ∈ poll.votes.values, ∃ n, v = JsVal.num n) :
    (calculateResults poll).totalVotes =
      JsVal.num ((poll.votes.values.map JsVal.toNat).foldl numAdd 0) := by
  have hv := values_eq_map_num poll.votes.values hnum
  have hf := foldl_jsAdd_map_num (poll.votes.values.map JsVal.toNat) 0
  rw [← hv] at hf
  exact hf

/-- The percentages of the aggregate, for an object of numbers with a non-zero
total whose declared options all read own properties. -/
theorem percentages_eq_map_num (poll : Poll)
    (hnum : ∀ v ∈ poll.votes.values, ∃ n, v = JsVal.num n)
    (hown : OptionsReadOwn poll) (hne : (calculateResults poll).totalVotes ≠ 0) :
    ((calculateResults poll).results.map fun r => r.percentage) =
      (poll.options.map fun o =>
        roundedPercent (((getProp poll.votes.entries o).map JsVal.toNat).getD 0)
          ((poll.votes.values.map JsVal.toNat).foldl numAdd 0)).map JsVal.num := by
  have htot := totalVotes_eq_foldl poll hnum
  simp only [calculateResults] at htot hne
  simp only [calculateResults, List.map_map]
  apply List.map_congr_left
  intro o ho
  have hne2 : ¬ (JsVal.num ((poll.votes.values.map JsVal.toNat).foldl numAdd 0) = 0) := by
    rw [← htot]
    exact hne
  simp only [Function.comp_def, htot, hne2, if_false, count_eq_num poll o hnum (hown o ho),
    percentageOf_num_num]

/-- For an object of numbers, pairwise distinct options, declared keys,
declared options reading own properties and a non-zero total, the percentages
are numbers that add up to 100 within half a point per option. -/
theorem sumPercentages_near_hundred (poll : Poll)
    (hnum : ∀ v ∈ poll.votes.values, ∃ n, v = JsVal.num n)
    (hown : OptionsReadOwn poll) (hnd : poll.options.Nodup)
    (hk : ∀ k ∈ poll.votes.keys, k ∈ poll.options)
    (hne : (calculateResults poll).totalVotes ≠ 0) :
    ∃ s : Nat, sumPercentages poll = some s ∧
      |(s : ℚ) - 100| ≤ (poll.options.length : ℚ) / 2 := by
  have htot := totalVotes_eq_foldl poll hnum
  have hT : 0 < (poll.votes.values.map JsVal.toNat).foldl numAdd 0 := by
    rcases Nat.eq_zero_or_pos ((poll.votes.values.map JsVal.toNat).foldl numAdd 0) with h0 | h0
    · rw [h0] at htot
      exact absurd htot hne
    · exact h0
  have hTq : (0 : ℚ) < (((poll.votes.values.map JsVal.toNat).foldl numAdd 0 : ℕ) : ℚ) := by
    exact_mod_cast hT
  have h53 : (2 : ℚ) ^ 53 = 9007199254740992 := by norm_num
  have hone : ∀ kv ∈ poll.votes.entries, poll.options.count kv.1 = 1 := by
    intro kv hkv
    have hkm : kv.1 ∈ poll.votes.keys := List.mem_map_of_mem Prod.fst hkv
    exact List.count_eq_one_of_mem hnd (hk kv.1 hkm)
  have hs : sumPercentages poll = some (poll.options.map fun o =>
      roundedPercent (((getProp poll.votes.entries o).map JsVal.toNat).getD 0)
        ((poll.votes.values.map JsVal.toNat).foldl numAdd 0)).sum := by
    rw [sumPercentages, percentages_eq_map_num poll hnum hown hne, sumNums_map_num]
  refine ⟨_, hs, ?_⟩
  apply near_hundred_of_lt
  · -- the sum is not too small
    by_cases hn : 200 ≤ poll.options.length
    · have hnq : (200 : ℚ) ≤ (poll.options.length : ℚ) := by exact_mod_cast hn
      have hs0 : (0 : ℚ) ≤ (((poll.options.map fun o =>
          roundedPercent (((getProp poll.votes.entries o).map JsVal.toNat).getD 0)
            ((poll.votes.values.map JsVal.toNat).foldl numAdd 0)).sum : ℕ) : ℚ) :=
        Nat.cast_nonneg _
      linarith
    · have hsum : (poll.options.map fun o =>
          ((getProp poll.votes.entries o).map JsVal.toNat).getD 0).sum =
          (poll.votes.values.map JsVal.toNat).sum := by
        have h := sum_apply_getProp id rfl poll.votes.entries poll.votes.nodupKeys
          poll.options hone
        simp only [id] at h
        rw [h]
        simp [VoteMap.values, List.map_map, Function.comp_def]
      have h := sum_percentage_sub_le
        (fun o => ((getProp poll.votes.entries o).map JsVal.toNat).getD 0)
        ((poll.votes.values.map JsVal.toNat).foldl numAdd 0) hT poll.options
      rw [hsum, abs_le] at h
      have hle := foldl_numAdd_le (poll.votes.values.map JsVal.toNat) 0
      rw [Nat.zero_add] at hle
      have hklen : (poll.votes.values.map JsVal.toNat).length ≤ poll.options.length := by
        have h1 : poll.votes.keys.length ≤ poll.options.length :=
          (List.subperm_of_subset poll.votes.nodupKeys hk).length_le
        simpa [VoteMap.values, VoteMap.keys] using h1
      have hkq : (((poll.votes.values.map JsVal.toNat).length : ℕ) : ℚ) ≤ 200 := by
        have : (poll.votes.values.map JsVal.toNat).length ≤ 200 := by omega
        exact_mod_cast this
      have hq : 1 - (((poll.votes.values.map JsVal.toNat).length : ℕ) : ℚ) / 2 ^ 53 ≤
          (((poll.votes.values.map JsVal.toNat).sum : ℕ) : ℚ) /
            (((poll.votes.values.map JsVal.toNat).foldl numAdd 0 : ℕ) : ℚ) := by
        rw [le_div_iff₀ hTq, mul_comm]
        exact hle
      have hl0 : (0 : ℚ) ≤ (poll.options.length : ℚ) := Nat.cast_nonneg _
      rw [h53] at h hq
      unfold roundedPercent
      nlinarith [h.1, hq, hkq]
  · -- the sum is not too large
    have hu := sum_roundedPercent_le
      (fun o => ((getProp poll.votes.entries o).map JsVal.toNat).getD 0)
      ((poll.votes.values.map JsVal.toNat).foldl numAdd 0) hT poll.options
    have hg := sum_apply_getProp
      (fun v => if decide (1 ≤ roundedPercent v
        ((poll.votes.values.map JsVal.toNat).foldl numAdd 0)) = true then v else 0)
      (by simp) poll.votes.entries poll.votes.nodupKeys poll.options hone
    have hfil : (poll.votes.entries.map fun kv =>
        if decide (1 ≤ roundedPercent kv.2.toNat
          ((poll.votes.values.map JsVal.toNat).foldl numAdd 0)) = true then kv.2.toNat
        else 0).sum =
        ((poll.votes.values.map JsVal.toNat).filter fun v => decide (1 ≤ roundedPercent v
          ((poll.votes.values.map JsVal.toNat).foldl numAdd 0))).sum := by
      rw [← sum_map_ite_eq_sum_filter]
      simp [VoteMap.values, List.map_map, Function.comp_def]
    rw [hg, hfil] at hu
    have hb := bigTerms_sum_le (poll.votes.values.map JsVal.toNat) hT
    have hr : (((((poll.votes.values.map JsVal.toNat).filter fun v =>
        decide (1 ≤ roundedPercent v
          ((poll.votes.values.map JsVal.toNat).foldl numAdd 0))).sum : ℕ) : ℚ) /
          (((poll.votes.values.map JsVal.toNat).foldl numAdd 0 : ℕ) : ℚ)) *
        (1 - 300 / 2 ^ 53) ≤ 1 := by
      rw [div_mul_eq_mul_div, div_le_one hTq]
      exact hb
    rw [h53] at hu hr
    linarith [hu, hr]

theorem results_twoOptionPoll :
    (calculateResults twoOptionPoll).results =
      [{ option := "a", count := 2, percentage := 67 },
        { option := "b", count := 1, percentage := 33 }] := by
  decide!

/-! ## Lemmas on the chart -/

theorem colors_getD_mod (i : Nat) : colors[i % 6]? = some (colors.getD (i % 6) "") := by
  have h : i % 6 < 6 := Nat.mod_lt _ (by decide)
  interval_cases i % 6 <;> rfl

/-- The loop paints one sector per item, each from the angle the previous
one ended at (the start angle for the first) to that angle plus the item's
slice, rounded to a double, with the palette colour of its index. -/
theorem drawSlices_spec (centerX centerY radius : ℚ) (total : Nat) (data : List ChartItem)
    (index : Nat) (startAngle : ℚ) :
    ∃ bounds : List ℚ,
      bounds.length = data.length + 1 ∧ bounds[0]? = some startAngle ∧
      (∀ (i : Nat) (item : ChartItem), data[i]? = some item →
        ∃ a b : ℚ, bounds[i]? = some a ∧ bounds[i + 1]? = some b ∧
          b = toDouble (a + toDouble (toDouble ((item.count : ℚ) / (total : ℚ)) *
            toDouble (Math.PI * 2)))) ∧
      drawSlices centerX centerY radius total data index startAngle =
        (List.range data.length).flatMap fun i =>
          [CanvasOp.beginPath, CanvasOp.moveTo centerX centerY,
            CanvasOp.arc centerX centerY radius (bounds.getD i 0) (bounds.getD (i + 1) 0),
            CanvasOp.closePath, CanvasOp.fillStyle (colors.getD ((index + i) % 6) ""),
            CanvasOp.fill] := by
  induction data generalizing index startAngle with
  | nil => exact ⟨[startAngle], rfl, rfl, by simp, by simp [drawSlices]⟩
  | cons item rest ih =>
    obtain ⟨bs, hlen, h0, hchain, hops⟩ :=
      ih (index + 1) (toDouble (startAngle + sliceAngle total item))
    refine ⟨startAngle :: bs, by simp [hlen], by simp, ?_, ?_⟩
    · intro i it hi
      cases i with
      | zero =>
        simp only [List.getElem?_cons_zero, Option.some.injEq] at hi
        subst hi
        exact ⟨startAngle, _, by simp, by simpa using h0, rfl⟩
      | succ j =>
        simp only [List.getElem?_cons_succ] at hi
        obtain ⟨a, b, ha, hb, hab⟩ := hchain j it hi
        exact ⟨a, b, by simpa using ha, by simpa using hb, hab⟩
    · rw [drawSlices, hops, List.length_cons, List.range_succ_eq_map, List.flatMap_cons,
        List.flatMap_map]
      congr 1
      · simp [colors, h0]
      · congr 1
        funext i
        have hidx : index + 1 + i = index + i.succ := by omega
        simp [hidx]

/-! ## Results: the aggregate's counts and its total -/

/-- C1 (as stated, refuted): the counts returned by `calculateResults` need not
add up to `totalVotes`.  With options `["a", "a"]` and votes `{a: 1}` the
counts add up to 2 while `totalVotes` is 1; with options `["a"]` and votes
`{a: 0, b: 1}` the counts add up to 0 while `totalVotes` is 1 (both records
are what the store holds after one `createPoll` and one `submitVote`); with
options `["a", "constructor"]` and votes `{a: 1}` the second count is the
inherited member `Object.prototype.constructor`, not a number; with votes
`{a: 9007199254740992, b: 1}` the counts add up to `2 ^ 53 + 1` while
`totalVotes`, a sum of doubles, is `2 ^ 53`. -/
theorem calculateResults_counts_sum_ne_total :
    (sumCounts repeatedOptionPoll = some 2 ∧
        (calculateResults repeatedOptionPoll).totalVotes = 1 ∧
        (sumCounts repeatedOptionPoll).map JsVal.num ≠
          some (calculateResults repeatedOptionPoll).totalVotes) ∧
      (sumCounts strayKeyPoll = some 0 ∧ (calculateResults strayKeyPoll).totalVotes = 1 ∧
        (sumCounts strayKeyPoll).map JsVal.num ≠
          some (calculateResults strayKeyPoll).totalVotes) ∧
      (run [Call.create "q" ["a", "a"] none 1 1 1, Call.vote "poll_1" "a"] Store.empty).polls =
        [repeatedOptionPoll] ∧
      (run [Call.create "q" ["a"] none 1 1 1, Call.vote "poll_1" "b"] Store.empty).polls =
        [strayKeyPoll] ∧
      (((calculateResults inheritedOptionPoll).results.map fun r => r.count) =
          [1, JsVal.native "constructor"] ∧
        sumCounts inheritedOptionPoll = none ∧
        (calculateResults inheritedOptionPoll).totalVotes = 1) ∧
      (sumCounts hugeCountPoll = some 9007199254740993 ∧
        (calculateResults hugeCountPoll).totalVotes = 9007199254740992) := by
  refine ⟨by decide, by decide, by decide, by decide, by decide, ?_⟩
  decide!

/-- C1 (amended): for every poll whose vote counts are non-negative integers
with a sum of at most `2 ^ 53`, in which each key of the vote-count mapping
occurs exactly once in the option list and every declared option that is not
a key is not the name of a member of `Object.prototype`, the counts returned
by `calculateResults` are numbers that add up to `totalVotes`. -/
theorem calculateResults_counts_sum_eq_total (poll : Poll) (hsafe : safeCounts poll = true)
    (hown : OptionsReadOwn poll) (h : ∀ k ∈ poll.votes.keys, poll.options.count k = 1) :
    (sumCounts poll).map JsVal.num = some (calculateResults poll).totalVotes :=
  sumCounts_eq_total_of_count_one poll hsafe hown h

/-- Instance of the amended C1 at options `["a", "b"]`, votes `{a: 2, b: 1}`. -/
theorem calculateResults_counts_sum_eq_total_witness :
    safeCounts twoOptionPoll = true ∧ OptionsReadOwn twoOptionPoll ∧
      (∀ k ∈ twoOptionPoll.votes.keys, twoOptionPoll.options.count k = 1) ∧
      (sumCounts twoOptionPoll).map JsVal.num = some (calculateResults twoOptionPoll).totalVotes ∧
      sumCounts twoOptionPoll = some 3 :=
  ⟨by decide, by decide, by decide,
    calculateResults_counts_sum_eq_total twoOptionPoll (by decide) (by decide) (by decide),
    by decide⟩

/-- C16 (as stated, refuted): with options `["a", "constructor"]` and votes
`{a: 1}` the options are pairwise distinct and the only key is declared, yet
the count of `"constructor"` is the inherited member, not a number, so the
counts do not add up to `totalVotes` 1; with options `["a", "b"]` and votes
`{a: 9007199254740992, b: 1}` the counts add up to `2 ^ 53 + 1` while
`totalVotes`, a sum of doubles, is `2 ^ 53`. -/
theorem counts_sum_ne_total_distinct_declared :
    (inheritedOptionPoll.options.Nodup ∧
        (∀ k ∈ inheritedOptionPoll.votes.keys, k ∈ inheritedOptionPoll.options) ∧
        ((calculateResults inheritedOptionPoll).results.map fun r => r.count) =
          [1, JsVal.native "constructor"] ∧
        (sumCounts inheritedOptionPoll).map JsVal.num ≠
          some (calculateResults inheritedOptionPoll).totalVotes) ∧
      (hugeCountPoll.options.Nodup ∧
        (∀ k ∈ hugeCountPoll.votes.keys, k ∈ hugeCountPoll.options) ∧
        sumCounts hugeCountPoll = some 9007199254740993 ∧
        (calculateResults hugeCountPoll).totalVotes = 9007199254740992) := by
  refine ⟨by decide, by decide, by decide, ?_⟩
  decide!

/-- C16 (amended): for a poll whose vote counts are non-negative integers with
a sum of at most `2 ^ 53`, whose declared options are pairwise distinct, whose
vote-count mapping has only declared options as keys, and whose declared
options that are not keys are not names of members of `Object.prototype`, the
counts returned by `calculateResults` are numbers that add up to
`totalVotes`. -/
theorem counts_sum_eq_total_of_distinct_declared (poll : Poll)
    (hsafe : safeCounts poll = true) (hown : OptionsReadOwn poll) (hnd : poll.options.Nodup)
    (hk : ∀ k ∈ poll.votes.keys, k ∈ poll.options) :
    (sumCounts poll).map JsVal.num = some (calculateResults poll).totalVotes :=
  sumCounts_eq_total_of_count_one poll hsafe hown fun k hkm =>
    List.count_eq_one_of_mem hnd (hk k hkm)

/-- Instance of the amended C16 at options `["a", "b", "c"]`, votes
`{a: 1, b: 1, c: 1}`. -/
theorem counts_sum_eq_total_of_distinct_declared_witness :
    safeCounts threeWayPoll = true ∧ OptionsReadOwn threeWayPoll ∧
      threeWayPoll.options.Nodup ∧
      (∀ k ∈ threeWayPoll.votes.keys, k ∈ threeWayPoll.options) ∧
      (sumCounts threeWayPoll).map JsVal.num = some (calculateResults threeWayPoll).totalVotes ∧
      sumCounts threeWayPoll = some 3 :=
  ⟨by decide, by decide, by decide, by decide,
    counts_sum_eq_total_of_distinct_declared threeWayPoll (by decide) (by decide) (by decide)
      (by decide),
    by decide⟩

/-! ## Voting twice, voting after deletion, voting on a missing poll -/

/-- C2: if `submitVote(id, o1)` returns true, an immediately following
`submitVote(id, o2)` returns false (showing the already-voted notice) and
leaves the whole store, poll collection and voted-set, as the first vote left
it. -/
theorem submitVote_twice_rejected (s : Store) (pollId o1 o2 : String)
    (h : (submitVote pollId o1 s).result = true) :
    (submitVote pollId o2 (submitVote pollId o1 s).store).result = false ∧
      (submitVote pollId o2 (submitVote pollId o1 s).store).store =
        (submitVote pollId o1 s).store ∧
      (submitVote pollId o2 (submitVote pollId o1 s).store).toast =
        some ("You have already voted on this poll.", "error") := by
  rw [submitVote_of_hasVoted pollId o2 _ (hasVoted_of_submitVote_true pollId o1 s h)]
  exact ⟨rfl, rfl, rfl⟩

/-- Instance of C2: a first vote for `"a"` on a fresh two-option poll is
accepted, a second vote for `"b"` is rejected and changes nothing. -/
theorem submitVote_twice_rejected_witness :
    (submitVote "poll_7" "a" freshStore).result = true ∧
      (submitVote "poll_7" "b" (submitVote "poll_7" "a" freshStore).store).result = false ∧
      (submitVote "poll_7" "b" (submitVote "poll_7" "a" freshStore).store).store =
        (submitVote "poll_7" "a" freshStore).store :=
  ⟨by decide,
    (submitVote_twice_rejected freshStore "poll_7" "a" "b" (by decide)).1,
    (submitVote_twice_rejected freshStore "poll_7" "a" "b" (by decide)).2.1⟩

/-- C3: after `deletePoll(id)` no poll of the collection has that id,
`hasVoted(id)` is false, and `submitVote(id, option)` returns false whatever
the option. -/
theorem deletePoll_then_submitVote (s : Store) (pollId option : String) :
    (∀ p ∈ (deletePoll pollId s).polls, p.id ≠ pollId) ∧
      hasVoted pollId (deletePoll pollId s) = false ∧
      (submitVote pollId option (deletePoll pollId s)).result = false := by
  have hpolls : ∀ p ∈ (deletePoll pollId s).polls, p.id ≠ pollId := by
    intro p hp
    simpa [deletePoll, getPolls, savePolls, saveUserVotes] using (List.mem_filter.mp hp).2
  have hvoted : hasVoted pollId (deletePoll pollId s) = false := by
    rw [← Bool.not_eq_true, hasVoted_iff]
    simp [deletePoll, getPolls, savePolls, saveUserVotes, getUserVotes]
  refine ⟨hpolls, hvoted, ?_⟩
  have hf : findIndex (fun p => p.id == pollId) (deletePoll pollId s).polls = none := by
    rw [findIndex_eq_none_iff]
    intro p hp
    simpa using hpolls p hp
  rw [submitVote_of_not_found _ _ _ hvoted hf]

/-- C7: when the id is not in the voted-set and no poll has it,
`submitVote(id, option)` returns false, shows no notice, and leaves the poll
collection and the voted-set as they were. -/
theorem submitVote_missing_poll (s : Store) (pollId option : String)
    (hv : hasVoted pollId s = false) (hn : ∀ p ∈ s.polls, p.id ≠ pollId) :
    (submitVote pollId option s).result = false ∧
      (submitVote pollId option s).store = s ∧
      (submitVote pollId option s).toast = none := by
  have hf : findIndex (fun p => p.id == pollId) s.polls = none := by
    rw [findIndex_eq_none_iff]
    intro p hp
    simpa using hn p hp
  rw [submitVote_of_not_found _ _ _ hv hf]
  exact ⟨rfl, rfl, rfl⟩

/-- Instance of C7: a vote on id `"poll_8"` in a store whose only poll is
`"poll_7"`. -/
theorem submitVote_missing_poll_witness :
    hasVoted "poll_8" freshStore = false ∧ (∀ p ∈ freshStore.polls, p.id ≠ "poll_8") ∧
      (submitVote "poll_8" "a" freshStore).result = false ∧
      (submitVote "poll_8" "a" freshStore).store = freshStore :=
  ⟨by decide, by decide,
    (submitVote_missing_poll freshStore "poll_8" "a" (by decide) (by decide)).1,
    (submitVote_missing_poll freshStore "poll_8" "a" (by decide) (by decide)).2.1⟩

/-! ## An accepted vote on a label naming a member of `Object.prototype` -/

/-- C6 (the code at the failing inputs): on the fresh poll `"poll_7"` with
options `["a", "b"]`, `submitVote("poll_7", "__proto__")` returns true and
records the id although no count changes (the collection is left as it was),
and `submitVote("poll_7", "constructor")` stores under the new key the string
`"function Object() { [native code] }1"` instead of the count 1. -/
theorem submitVote_inherited_label :
    (submitVote "poll_7" "__proto__" freshStore).result = true ∧
      (submitVote "poll_7" "__proto__" freshStore).store.polls = freshStore.polls ∧
      (submitVote "poll_7" "__proto__" freshStore).store.userVotes = ["poll_7"] ∧
      (submitVote "poll_7" "constructor" freshStore).result = true ∧
      (submitVote "poll_7" "constructor" freshStore).store.polls.map
          (fun p => p.votes.entries) =
        [[("a", 0), ("b", 0),
          ("constructor", JsVal.str "function Object() \x7b [native code] \x7d1")]] := by
  decide

/-! ## Creating a poll -/

/-- C5: after `createPoll` the first element of the collection is the new
poll; `calculateResults` of it has `totalVotes` 0 and one entry per declared
option, in order, each with count 0 and percentage 0; the keys of its
vote-count mapping are exactly the declared options, each mapped to 0. -/
theorem createPoll_results_all_zero (s : Store) (question : String) (options : List String)
    (expiryDays : Option Int) (tId tCreated tExpiry : Nat) :
    ∃ p : Poll,
      (createPoll question options expiryDays tId tCreated tExpiry s).2.polls.head? = some p ∧
      p.id = (createPoll question options expiryDays tId tCreated tExpiry s).1 ∧
      p.options = options ∧
      (calculateResults p).totalVotes = 0 ∧
      (calculateResults p).results.map (fun r => r.option) = options ∧
      (∀ r ∈ (calculateResults p).results, r.count = 0 ∧ r.percentage = 0) ∧
      (∀ k, k ∈ p.votes.keys ↔ k ∈ options) ∧
      (∀ k ∈ options, p.votes.get k = some 0) := by
  obtain ⟨hkeys, hget, hzero⟩ := initVotes_spec options
  refine ⟨_, rfl, rfl, rfl, ?_, ?_, ?_, hkeys, hget⟩
  · exact totalVotes_of_zeros _ hzero
  · simp [calculateResults, Function.comp_def]
  · intro r hr
    have htot := totalVotes_of_zeros
      { id := "poll_" ++ toString tId, question := question, options := options,
        createdAt := tCreated,
        expiresAt := if truthyDays expiryDays then
          some ((tExpiry : Int) + expiryDays.getD 0 * 86400000) else none,
        votes := options.foldl (fun acc opt => acc.set opt 0) VoteMap.empty } hzero
    simp only [calculateResults] at htot
    simp only [calculateResults, List.mem_map] at hr
    obtain ⟨o, ho, rfl⟩ := hr
    simp only [htot, if_true, VoteMap.read_of_get _ o 0 (hget o ho), orZero_some_zero, and_self]

/-- C4: when the id `createPoll` returns is not in the voted-set and `a` is one
of the options, `submitVote(id, a)` right after `createPoll(question, options)`
returns true, and `calculateResults` of the (first) poll with that id has
`totalVotes` 1 and one entry per declared option, in order: count 1 and
percentage 100 where the option is `a`, count 0 and percentage 0 elsewhere. -/
theorem createPoll_then_submitVote (s : Store) (question : String) (options : List String)
    (expiryDays : Option Int) (tId tCreated tExpiry : Nat) (a : String)
    (hv : hasVoted (createPoll question options expiryDays tId tCreated tExpiry s).1 s = false)
    (ha : a ∈ options) :
    (submitVote (createPoll question options expiryDays tId tCreated tExpiry s).1 a
        (createPoll question options expiryDays tId tCreated tExpiry s).2).result = true ∧
      ∃ p : Poll,
        (submitVote (createPoll question options expiryDays tId tCreated tExpiry s).1 a
            (createPoll question options expiryDays tId tCreated tExpiry s).2).store.polls.find?
          (fun q => q.id == (createPoll question options expiryDays tId tCreated tExpiry s).1) =
            some p ∧
        (calculateResults p).totalVotes = 1 ∧
        (calculateResults p).results.map (fun r => r.option) = options ∧
        ∀ r ∈ (calculateResults p).results,
          (r.option = a → r.count = 1 ∧ r.percentage = 100) ∧
          (r.option ≠ a → r.count = 0 ∧ r.percentage = 0) := by
  obtain ⟨hkeys, hget, hzero⟩ := initVotes_spec options
  have hv1 : hasVoted ("poll_" ++ toString tId)
      (createPoll question options expiryDays tId tCreated tExpiry s).2 = false := hv
  have hf : findIndex (fun p => p.id == "poll_" ++ toString tId)
      (createPoll question options expiryDays tId tCreated tExpiry s).2.polls = some 0 := by
    simp [createPoll, savePolls, findIndex]
  have hsub := submitVote_of_found ("poll_" ++ toString tId) a _ 0 hv1 hf
  have hid : (createPoll question options expiryDays tId tCreated tExpiry s).1 =
      "poll_" ++ toString tId := rfl
  rw [hid, hsub]
  refine ⟨rfl, ?_⟩
  have hvotes : (options.foldl (fun acc opt => acc.set opt 0) VoteMap.empty).assign a
      (jsAdd (orZero ((options.foldl (fun acc opt => acc.set opt 0) VoteMap.empty).read a)) 1) =
      (options.foldl (fun acc opt => acc.set opt 0) VoteMap.empty).set a 1 := by
    rw [VoteMap.read_of_get _ a 0 (hget a ha), orZero_some_zero,
      VoteMap.assign_of_get _ a _ 0 (hget a ha)]
    rfl
  have htot : (calculateResults
      { id := "poll_" ++ toString tId, question := question, options := options,
        createdAt := tCreated,
        expiresAt := if truthyDays expiryDays then
          some ((tExpiry : Int) + expiryDays.getD 0 * 86400000) else none,
        votes := (options.foldl (fun acc opt => acc.set opt 0) VoteMap.empty).set a 1
      }).totalVotes = 1 := by
    have hmem : a ∈ (options.foldl (fun acc opt => acc.set opt 0) VoteMap.empty).entries.map
        Prod.fst := (hkeys a).mpr ha
    exact foldl_jsAdd_setProp_one
      (options.foldl (fun acc opt => acc.set opt 0) VoteMap.empty).entries a 0
      (fun kv hkv => hzero kv.2 (List.mem_map_of_mem Prod.snd hkv)) hmem (by decide)
  refine ⟨{ id := "poll_" ++ toString tId, question := question, options := options,
            createdAt := tCreated,
            expiresAt := if truthyDays expiryDays then
              some ((tExpiry : Int) + expiryDays.getD 0 * 86400000) else none,
            votes := (options.foldl (fun acc opt => acc.set opt 0) VoteMap.empty).set a 1 },
    ?_, htot, ?_, ?_⟩
  · simp [createPoll, savePolls, getPolls, hvotes]
  · simp [calculateResults, Function.comp_def]
  · intro r hr
    simp only [calculateResults] at htot
    simp only [calculateResults, List.mem_map] at hr
    obtain ⟨o, ho, rfl⟩ := hr
    have h10 : ¬ ((1 : JsVal) = 0) := by decide
    simp only [htot, h10, if_false]
    constructor
    · intro hoa
      have hoa1 : o = a := hoa
      subst hoa1
      rw [VoteMap.read_of_get _ o 1 (VoteMap.get_set_self _ _ _), orZero_some_one]
      exact ⟨rfl, percentageOf_one_one⟩
    · intro hoa
      have hoa1 : o ≠ a := hoa
      have hg : ((options.foldl (fun acc opt => acc.set opt 0) VoteMap.empty).set a 1).get o =
          some 0 := by
        rw [VoteMap.get_set_of_ne _ _ _ _ hoa1]
        exact hget o ho
      rw [VoteMap.read_of_get _ o 0 hg, orZero_some_zero]
      exact ⟨rfl, percentageOf_zero_one⟩

/-- Instance of C4: `createPoll("q", ["a", "b"])` at clock reading 7 on the
empty store, then a vote for `"b"`. -/
theorem createPoll_then_submitVote_witness :
    hasVoted (createPoll "q" ["a", "b"] none 7 7 7 Store.empty).1 Store.empty = false ∧
      "b" ∈ ["a", "b"] ∧
      (submitVote (createPoll "q" ["a", "b"] none 7 7 7 Store.empty).1 "b"
        (createPoll "q" ["a", "b"] none 7 7 7 Store.empty).2).result = true :=
  ⟨by decide, by decide,
    (createPoll_then_submitVote Store.empty "q" ["a", "b"] none 7 7 7 "b"
      (by decide) (by decide)).1⟩

/-! ## What `createPoll` returns and stores -/

/-- C9 (as stated, refuted): `createPoll("q", ["a"], 100000001)` at clock
reading 0 throws: the expiry instant 8640000086400000 is not a valid date, so
no id is returned and nothing is stored. -/
theorem createPoll_throws_on_far_expiry :
    createPollCall "q" ["a"] (some 100000001) 0 0 0 Store.empty = none ∧
      (Call.create "q" ["a"] (some 100000001) 0 0 0).apply Store.empty = Store.empty := by
  decide

/-- C9 (amended): when `createPoll` does not throw (`expiryDays` is absent or
0, or the expiry instant `Date.now() + expiryDays * 86400000` is a valid
date), it returns the id of the poll it builds (from the given question and
options, with the given creation instant), the resulting collection is that
poll followed by the previous collection, and the voted-set is unchanged. -/
theorem createPoll_prepends (s : Store) (question : String) (options : List String)
    (expiryDays : Option Int) (tId tCreated tExpiry : Nat)
    (hvalid : createPollThrows expiryDays tExpiry = false) :
    ∃ (id : String) (s1 : Store) (p : Poll),
      createPollCall question options expiryDays tId tCreated tExpiry s = some (id, s1) ∧
      p.id = id ∧ p.question = question ∧ p.options = options ∧ p.createdAt = tCreated ∧
      s1.polls = p :: s.polls ∧ s1.userVotes = s.userVotes := by
  refine ⟨(createPoll question options expiryDays tId tCreated tExpiry s).1,
    (createPoll question options expiryDays tId tCreated tExpiry s).2, _, ?_,
    rfl, rfl, rfl, rfl, rfl, rfl⟩
  simp [createPollCall, hvalid]

/-- Instance of the amended C9: a poll expiring in 7 days, created at clock
reading 1700000000000 on a store that already holds a poll. -/
theorem createPoll_prepends_witness :
    createPollThrows (some 7) 1700000000000 = false ∧
      ∃ (id : String) (s1 : Store) (p : Poll),
        createPollCall "r" ["x", "y"] (some 7) 1700000000000 1700000000000 1700000000000
            freshStore = some (id, s1) ∧
          p.id = id ∧ p.question = "r" ∧ p.options = ["x", "y"] ∧
          p.createdAt = 1700000000000 ∧
          s1.polls = p :: freshStore.polls ∧ s1.userVotes = freshStore.userVotes :=
  ⟨by decide,
    createPoll_prepends freshStore "r" ["x", "y"] (some 7) 1700000000000 1700000000000
      1700000000000 (by decide)⟩

/-! ## The entries of the aggregate -/

/-- C8 (as stated, refuted): with votes `{x: 23, y: 17}` the code returns the
percentage 57 for `x` (the double `(23 / 40) * 100` is below 57.5), while
`23 / 40 × 100` rounded over exact rationals is 58; and with options
`["a", "constructor"]` and votes `{a: 1}` the count of the absent key
`"constructor"` is the inherited member, not 0, and its percentage `NaN`. -/
theorem percentage_not_exact_rounding :
    (calculateResults fortyVotePoll).results =
        [{ option := "x", count := 23, percentage := 57 },
          { option := "y", count := 17, percentage := 43 }] ∧
      Math.round ((23 : ℚ) / 40 * 100) = 58 ∧
      (calculateResults inheritedOptionPoll).results =
        [{ option := "a", count := 1, percentage := 100 },
          { option := "constructor", count := JsVal.native "constructor",
            percentage := JsVal.nan }] := by
  decide!

/-- C8 (amended): for a poll whose vote counts are non-negative integers and
whose declared options that are not keys are not names of members of
`Object.prototype`, `calculateResults(poll).results` has one entry per declared
option, in the declared order; `totalVotes` is a number `t`; entry `i` carries
the option `options[i]`, the count `c` read under it (0 if absent), and a
percentage `p` that is 0 when `t` is 0 and otherwise the integer nearest, a
half going up, to the double `d` the code computes for `(c / t) * 100` (the
quotient and the product each rounded to a double):
`p - 1/2 ≤ d < p + 1/2`. -/
theorem calculateResults_entries (poll : Poll) (hnum : doubleVotes poll = true)
    (hown : OptionsReadOwn poll) :
    (calculateResults poll).results.length = poll.options.length ∧
      ∃ t : Nat, (calculateResults poll).totalVotes = JsVal.num t ∧
        ∀ (i : Nat) (o : String), poll.options[i]? = some o →
          ∃ (r : OptionResult) (c p : Nat),
            (calculateResults poll).results[i]? = some r ∧
            r.option = o ∧
            r.count = JsVal.num c ∧
            c = ((poll.votes.get o).map JsVal.toNat).getD 0 ∧
            r.percentage = JsVal.num p ∧
            (t = 0 → p = 0) ∧
            (t ≠ 0 →
              (p : ℚ) - 1 / 2 ≤ toDouble (toDouble ((c : ℚ) / (t : ℚ)) * 100) ∧
                toDouble (toDouble ((c : ℚ) / (t : ℚ)) * 100) < (p : ℚ) + 1 / 2) := by
  have hvals := doubleVotes_isNum poll hnum
  obtain ⟨t, ht⟩ := totalVotes_isNum poll hvals
  refine ⟨by simp [calculateResults], t, ht, ?_⟩
  intro i o hio
  have ho : o ∈ poll.options := List.getElem?_mem hio
  have hcount := count_eq_num poll o hvals (hown o ho)
  have hr : (calculateResults poll).results[i]? =
      some { option := o, count := orZero (poll.votes.read o),
             percentage := if (calculateResults poll).totalVotes = 0 then 0
               else percentageOf (orZero (poll.votes.read o))
                 (calculateResults poll).totalVotes } := by
    simp only [calculateResults, List.getElem?_map, hio, Option.map_some']
  rw [ht, hcount] at hr
  by_cases h0 : t = 0
  · subst h0
    exact ⟨_, _, 0, hr, rfl, rfl, rfl, rfl, fun _ => rfl, fun h => absurd rfl h⟩
  · have htne : ¬ (JsVal.num t = 0) := by
      intro h
      exact h0 (JsVal.num.inj h)
    rw [if_neg htne, percentageOf_num] at hr
    refine ⟨_, _, _, hr, rfl, rfl, rfl, rfl, fun h => absurd h h0, fun _ => ?_⟩
    have hd0 := toDouble_nonneg
      (toDouble (((((getProp poll.votes.entries o).map JsVal.toNat).getD 0 : ℕ) : ℚ) /
        (t : ℚ)) * 100)
      (mul_nonneg (toDouble_nonneg _ (by positivity)) (by norm_num))
    rw [round_toNat_cast _ hd0]
    exact round_bounds _

/-- Instance of the amended C8 at options `["a", "b"]`, votes `{a: 2, b: 1}`. -/
theorem calculateResults_entries_witness :
    doubleVotes twoOptionPoll = true ∧ OptionsReadOwn twoOptionPoll ∧
      (calculateResults twoOptionPoll).results.length = twoOptionPoll.options.length ∧
      (calculateResults twoOptionPoll).results =
        [{ option := "a", count := 2, percentage := 67 },
          { option := "b", count := 1, percentage := 33 }] :=
  ⟨by decide!, by decide,
    (calculateResults_entries twoOptionPoll (by decide!) (by decide)).1, by decide!⟩

/-! ## Percentages and counts of the aggregate -/

/-- C14 (as stated, refuted): with options `["a", "constructor"]` and votes
`{a: 1}` the options are pairwise distinct, the only key is declared and
`totalVotes` is 1, yet the percentages are 100 and `NaN`: they have no sum. -/
theorem percentages_sum_undefined :
    inheritedOptionPoll.options.Nodup ∧
      (∀ k ∈ inheritedOptionPoll.votes.keys, k ∈ inheritedOptionPoll.options) ∧
      (calculateResults inheritedOptionPoll).totalVotes = 1 ∧
      ((calculateResults inheritedOptionPoll).results.map fun r => r.percentage) =
        [100, JsVal.nan] ∧
      sumPercentages inheritedOptionPoll = none := by
  decide!

/-- C14 (amended): for a poll with pairwise distinct options, all vote-count
keys declared, declared options that are not keys not naming members of
`Object.prototype`, vote counts that are non-negative integers held by doubles
with an exact sum below `2 ^ 1000`, and a non-zero `totalVotes` (the sum of
the counts in doubles), the percentages returned by `calculateResults` are
numbers whose sum is within `n / 2` of 100, `n` being the number of options;
and for a poll with `totalVotes` 0 every returned percentage is 0. -/
theorem percentages_sum_near_hundred (poll : Poll) :
    (doubleVotes poll = true → OptionsReadOwn poll → poll.options.Nodup →
        (∀ k ∈ poll.votes.keys, k ∈ poll.options) →
        (calculateResults poll).totalVotes ≠ 0 →
        ∃ s : Nat, sumPercentages poll = some s ∧
          |(s : ℚ) - 100| ≤ (poll.options.length : ℚ) / 2) ∧
      ((calculateResults poll).totalVotes = 0 →
        ∀ r ∈ (calculateResults poll).results, r.percentage = 0) := by
  refine ⟨fun hd => sumPercentages_near_hundred poll (doubleVotes_isNum poll hd), ?_⟩
  intro h0 r hr
  simp only [calculateResults] at h0
  simp only [calculateResults, List.mem_map] at hr
  obtain ⟨o, _, rfl⟩ := hr
  simp [h0]

/-- Instance of the amended C14: three options with one vote each give
percentages 33, 33, 33, whose sum 99 is within 3/2 of 100. -/
theorem percentages_sum_near_hundred_witness :
    doubleVotes threeWayPoll = true ∧ OptionsReadOwn threeWayPoll ∧
      threeWayPoll.options.Nodup ∧
      (∀ k ∈ threeWayPoll.votes.keys, k ∈ threeWayPoll.options) ∧
      (calculateResults threeWayPoll).totalVotes ≠ 0 ∧
      sumPercentages threeWayPoll = some 99 ∧
      ∃ s : Nat, sumPercentages threeWayPoll = some s ∧
        |(s : ℚ) - 100| ≤ (threeWayPoll.options.length : ℚ) / 2 :=
  ⟨by decide!, by decide, by decide, by decide, by decide, by decide!,
    (percentages_sum_near_hundred threeWayPoll).1 (by decide!) (by decide) (by decide)
      (by decide) (by decide)⟩

/-- C18 (as stated, refuted): with options `["a", "constructor"]` and votes
`{a: 1}`, all counts of the mapping are non-negative integers, yet the entry
for `"constructor"` has the inherited member as its count and `NaN` as its
percentage: neither is a number within the bounds. -/
theorem results_entry_not_a_number :
    doubleVotes inheritedOptionPoll = true ∧
      (calculateResults inheritedOptionPoll).results[1]? =
        some { option := "constructor", count := JsVal.native "constructor",
               percentage := JsVal.nan } := by
  decide!

/-- C18 (amended): for every poll whose vote counts are non-negative integers
held by doubles with an exact sum below `2 ^ 1000` and whose declared options
that are not keys are not names of members of `Object.prototype`, every entry
of `calculateResults(poll).results` has a count that is a number between 0 and
`totalVotes` (the sum of the counts in doubles) and a percentage that is an
integer between 0 and 100. -/
theorem results_entry_bounds (poll : Poll) (hd : doubleVotes poll = true)
    (hown : OptionsReadOwn poll) (r : OptionResult)
    (hr : r ∈ (calculateResults poll).results) :
    ∃ c p t : Nat, r.count = JsVal.num c ∧ r.percentage = JsVal.num p ∧
      (calculateResults poll).totalVotes = JsVal.num t ∧
      0 ≤ c ∧ c ≤ t ∧ 0 ≤ p ∧ p ≤ 100 := by
  have hnum := doubleVotes_isNum poll hd
  have htot := totalVotes_eq_foldl poll hnum
  have hle : ∀ o, ((getProp poll.votes.entries o).map JsVal.toNat).getD 0 ≤
      (poll.votes.values.map JsVal.toNat).foldl numAdd 0 := by
    intro o
    cases hg : getProp poll.votes.entries o with
    | none => exact Nat.zero_le _
    | some v =>
      have hmem : v ∈ poll.votes.values :=
        List.mem_map_of_mem Prod.snd (mem_of_getProp_eq_some _ _ _ hg)
      obtain ⟨n, hn, hrep⟩ := doubleVotes_spec poll hd v hmem
      subst hn
      exact le_foldl_numAdd_of_mem _ 0 n hrep (Or.inr (List.mem_map_of_mem JsVal.toNat hmem))
  simp only [calculateResults] at htot
  simp only [calculateResults, List.mem_map] at hr
  obtain ⟨o, ho, rfl⟩ := hr
  have hcount := count_eq_num poll o hnum (hown o ho)
  by_cases h0 : (poll.votes.values.map JsVal.toNat).foldl numAdd 0 = 0
  · refine ⟨_, 0, _, hcount, ?_, htot, Nat.zero_le _, hle o, Nat.zero_le _, by omega⟩
    simp only [calculateResults, htot, h0]
    rfl
  · have htne : ¬ (JsVal.num ((poll.votes.values.map JsVal.toNat).foldl numAdd 0) = 0) := by
      intro h
      exact h0 (JsVal.num.inj h)
    refine ⟨_, _, _, hcount, ?_, htot, Nat.zero_le _, hle o, Nat.zero_le _,
      percentage_le_hundred _ _ (hle o) (Nat.pos_of_ne_zero h0)⟩
    simp only [calculateResults, htot, htne, if_false, hcount, percentageOf_num]

/-- Instance of the amended C18: the entry for `"a"` of a poll with votes
`{a: 2, b: 1}` has count 2 of 3 and percentage 67. -/
theorem results_entry_bounds_witness :
    doubleVotes twoOptionPoll = true ∧ OptionsReadOwn twoOptionPoll ∧
      ({ option := "a", count := 2, percentage := 67 } : OptionResult) ∈
        (calculateResults twoOptionPoll).results ∧
      ∃ c p t : Nat, (2 : JsVal) = JsVal.num c ∧ (67 : JsVal) = JsVal.num p ∧
        (calculateResults twoOptionPoll).totalVotes = JsVal.num t ∧
        0 ≤ c ∧ c ≤ t ∧ 0 ≤ p ∧ p ≤ 100 :=
  ⟨by decide!, by decide, by rw [results_twoOptionPoll]; exact List.mem_cons_self _ _,
    results_entry_bounds twoOptionPoll (by decide!) (by decide)
      { option := "a", count := 2, percentage := 67 }
      (by rw [results_twoOptionPoll]; exact List.mem_cons_self _ _)⟩

/-! ## Keys of the vote-count mapping along call sequences -/

/-- C10 (as stated, refuted): after `createPoll("q", ["a"])` at clock reading 0
and `submitVote("poll_0", "b")` on the empty store, the vote is accepted and
the only poll has votes `{a: 0, b: 1}`, whose key `"b"` is not a declared
option. -/
theorem keysDeclared_fails_after_undeclared_vote :
    (run [Call.create "q" ["a"] none 0 0 0, Call.vote "poll_0" "b"] Store.empty).polls.map
        (fun p => (p.options, p.votes.entries)) = [(["a"], [("a", 0), ("b", 1)])] ∧
      ¬ KeysDeclared
        (run [Call.create "q" ["a"] none 0 0 0, Call.vote "poll_0" "b"] Store.empty) := by
  decide

/-- C10 (amended): in every store reached from the empty store by a sequence of
`createPoll`, `deletePoll` and `submitVote` calls in which each `submitVote`
names an option declared by the poll it targets (the first poll with that id,
if any), every key of every poll's vote-count mapping is one of that poll's
declared options. -/
theorem keysDeclared_of_votesDeclared (calls : List Call)
    (hd : votesDeclared calls Store.empty = true) :
    KeysDeclared (run calls Store.empty) :=
  keysDeclared_run calls Store.empty keysDeclared_empty hd

/-- Instance of the amended C10: create a poll, vote for its declared option
`"a"`, create a second poll, delete the first. -/
theorem keysDeclared_of_votesDeclared_witness :
    votesDeclared
        [Call.create "q" ["a", "b"] none 0 0 0, Call.vote "poll_0" "a",
          Call.create "r" ["c"] (some 2) 1 1 1, Call.vote "poll_1" "c", Call.delete "poll_0"]
        Store.empty = true ∧
      KeysDeclared
        (run
          [Call.create "q" ["a", "b"] none 0 0 0, Call.vote "poll_0" "a",
            Call.create "r" ["c"] (some 2) 1 1 1, Call.vote "poll_1" "c", Call.delete "poll_0"]
          Store.empty) :=
  ⟨by decide, keysDeclared_of_votesDeclared _ (by decide)⟩

/-! ## Identifiers along call sequences -/

/-- C11 (as stated, refuted): two `createPoll` calls that read the same clock
value 5 (a non-decreasing clock) leave two polls with the id `"poll_5"`. -/
theorem uniqueIds_fails_at_equal_clock :
    (idClocks sameInstantCalls).Pairwise (fun x y => x ≤ y) ∧
      ((run sameInstantCalls Store.empty).polls.map fun p => p.id) = ["poll_5", "poll_5"] ∧
      ¬ UniqueIds (run sameInstantCalls Store.empty) := by
  decide

/-- C11 (amended): in every store reached from the empty store by a sequence of
`createPoll`, `deletePoll` and `submitVote` calls in which the clock readings
the `createPoll` calls derive their ids from increase strictly from one
`createPoll` to the next, no two polls of the collection have the same id. -/
theorem uniqueIds_of_increasing_clock (calls : List Call)
    (hc : (idClocks calls).Pairwise (fun x y => x < y)) :
    UniqueIds (run calls Store.empty) := by
  apply uniqueIds_run calls Store.empty 0 _ _ hc
  · intro t _
    exact Nat.zero_le t
  · simp [UniqueIds, Store.empty]
  · intro i hi
    simp [Store.empty] at hi

/-- Instance of the amended C11: polls created at clock readings 5 and 6. -/
theorem uniqueIds_of_increasing_clock_witness :
    (idClocks laterInstantCalls).Pairwise (fun x y => x < y) ∧
      UniqueIds (run laterInstantCalls Store.empty) :=
  ⟨by decide, uniqueIds_of_increasing_clock laterInstantCalls (by decide)⟩

/-! ## One vote per poll -/

/-- C12 (the code at the failing input): after `createPoll("q", ["a", "b"])`
and `submitVote(id, "constructor")` the poll holds the votes
`{a: 0, b: 0, constructor: "function Object() { [native code] }1"}` and its
`totalVotes` is the string `"0function Object() { [native code] }1"`, not a
number of at most 1. -/
theorem totalVotes_after_inherited_vote :
    (run constructorVoteCalls Store.empty).polls.map
        (fun p => (calculateResults p).totalVotes) =
      [JsVal.str "0function Object() \x7b [native code] \x7d1"] ∧
      ¬ ∃ p ∈ (run constructorVoteCalls Store.empty).polls,
        ∃ n, (calculateResults p).totalVotes = JsVal.num n := by
  have h : (run constructorVoteCalls Store.empty).polls.map
      (fun p => (calculateResults p).totalVotes) =
      [JsVal.str "0function Object() \x7b [native code] \x7d1"] := by decide
  refine ⟨h, ?_⟩
  rintro ⟨p, hp, n, hn⟩
  have hmem := List.mem_map_of_mem (fun p => (calculateResults p).totalVotes) hp
  rw [h, List.mem_singleton] at hmem
  have hmem1 : (calculateResults p).totalVotes =
      JsVal.str "0function Object() \x7b [native code] \x7d1" := hmem
  rw [hn] at hmem1
  exact JsVal.noConfusion hmem1

/-- C13 (the code at the failing input): after `createPoll("q", ["a", "b"])`
and `submitVote(id, "__proto__")` the id is in the voted-set, `hasVoted(id)` is
true, and the only poll has `totalVotes` 0. -/
theorem voted_id_without_counted_poll :
    hasVoted "poll_0" (run protoVoteCalls Store.empty) = true ∧
      (run protoVoteCalls Store.empty).polls.map
          (fun p => (p.id, (calculateResults p).totalVotes)) = [("poll_0", 0)] := by
  decide

/-! ## Deleting a poll -/

/-- C15: `deletePoll(id)` keeps the polls whose id differs from `id`, unchanged
and in their order (the collection afterwards is a sublist of the one before,
and the polls with a different id are the same list before and after), and
likewise keeps every voted-set entry other than `id`; when no poll has the id
the collection is unchanged. -/
theorem deletePoll_frame (s : Store) (pollId : String) :
    List.Sublist (deletePoll pollId s).polls s.polls ∧
      (deletePoll pollId s).polls.filter (fun p => p.id != pollId) =
        s.polls.filter (fun p => p.id != pollId) ∧
      (∀ p ∈ s.polls, p.id ≠ pollId → p ∈ (deletePoll pollId s).polls) ∧
      List.Sublist (deletePoll pollId s).userVotes s.userVotes ∧
      (deletePoll pollId s).userVotes.filter (fun id => id != pollId) =
        s.userVotes.filter (fun id => id != pollId) ∧
      (∀ id ∈ s.userVotes, id ≠ pollId → id ∈ (deletePoll pollId s).userVotes) ∧
      ((∀ p ∈ s.polls, p.id ≠ pollId) → (deletePoll pollId s).polls = s.polls) := by
  simp only [deletePoll, savePolls, getPolls, saveUserVotes, getUserVotes]
  refine ⟨List.filter_sublist _, ?_, ?_, List.filter_sublist _, ?_, ?_, ?_⟩
  · rw [List.filter_filter]
    simp
  · intro p hp hne
    exact List.mem_filter.mpr ⟨hp, by simpa using hne⟩
  · rw [List.filter_filter]
    simp
  · intro id hid hne
    exact List.mem_filter.mpr ⟨hid, by simpa using hne⟩
  · intro h
    apply List.filter_eq_self.mpr
    intro p hp
    simpa using h p hp

/-! ## The pie chart -/

/-- C17 (as stated, refuted): for six items of count 1 on a 200 by 200 canvas
the sixth sector (the arc is the 33rd call on the context) ends at the double
`7074237752028439 / 2 ^ 50` (6.283185307179585), one unit in the last place
below `Math.PI * 2`: the sectors do not close the full turn. -/
theorem drawPieChart_last_sector_short :
    chartTotal sixEqualChart = 6 ∧
      (drawPieChart (some ⟨200, 200⟩) "#ffffff" sixEqualChart)[32]? =
        some (CanvasOp.arc 100 100 70 (2947599063345183 / 562949953421312)
          (7074237752028439 / 1125899906842624)) ∧
      (7074237752028439 / 1125899906842624 : ℚ) < toDouble (Math.PI * 2) ∧
      toDouble (Math.PI * 2) = Math.PI * 2 := by
  decide!

/-- C17 (amended): for a list of items whose counts are non-negative integers
held by doubles with an exact sum below `2 ^ 1000` and whose total (the sum of
the counts in doubles) is not 0, `drawPieChart` (on a canvas that exists)
makes, for each item in order, the calls `beginPath`, `moveTo(centre)`,
`arc(centre, 70, start, end)`, `closePath`, `fillStyle = colors[i mod 6]`,
`fill`, and then paints the centre disc of radius 45 in the background
colour.  The sectors are consecutive:
sector 0 starts at angle 0, sector `i + 1` starts where sector `i` ends, and
sector `i` ends at the double `start + (count_i / total) * (Math.PI * 2)`, each
operation rounded to a double (`bounds` lists the start of sector 0 and the
ends of all sectors).  When the total is 0 no sector is painted, only the one
neutral disc of radius 70. -/
theorem drawPieChart_sectors (canvas : Canvas) (bgCard : String) (data : List ChartItem) :
    (doubleCounts data = true → chartTotal data ≠ 0 →
        ∃ bounds : List ℚ,
          bounds.length = data.length + 1 ∧ bounds[0]? = some 0 ∧
          (∀ (i : Nat) (item : ChartItem), data[i]? = some item →
            ∃ a b : ℚ, bounds[i]? = some a ∧ bounds[i + 1]? = some b ∧
              b = toDouble (a + toDouble (toDouble ((item.count : ℚ) / (chartTotal data : ℚ)) *
                toDouble (Math.PI * 2)))) ∧
          drawPieChart (some canvas) bgCard data =
            ((List.range data.length).flatMap fun i =>
              [CanvasOp.beginPath,
                CanvasOp.moveTo (toDouble ((canvas.width : ℚ) / 2))
                  (toDouble ((canvas.height : ℚ) / 2)),
                CanvasOp.arc (toDouble ((canvas.width : ℚ) / 2))
                  (toDouble ((canvas.height : ℚ) / 2)) 70 (bounds.getD i 0)
                  (bounds.getD (i + 1) 0),
                CanvasOp.closePath, CanvasOp.fillStyle (colors.getD (i % 6) ""),
                CanvasOp.fill]) ++
              [CanvasOp.beginPath,
                CanvasOp.arc (toDouble ((canvas.width : ℚ) / 2))
                  (toDouble ((canvas.height : ℚ) / 2)) 45 0 (toDouble (Math.PI * 2)),
                CanvasOp.fillStyle bgCard, CanvasOp.fill] ∧
          ∀ i : Nat, colors[i % 6]? = some (colors.getD (i % 6) "")) ∧
      (chartTotal data = 0 →
        drawPieChart (some canvas) bgCard data =
          [CanvasOp.beginPath,
            CanvasOp.arc (toDouble ((canvas.width : ℚ) / 2))
              (toDouble ((canvas.height : ℚ) / 2)) 70 0 (toDouble (Math.PI * 2)),
            CanvasOp.fillStyle "#e2e8f0", CanvasOp.fill]) := by
  constructor
  · intro _ hne
    obtain ⟨bs, hlen, h0, hchain, hops⟩ := drawSlices_spec
      (toDouble ((canvas.width : ℚ) / 2)) (toDouble ((canvas.height : ℚ) / 2)) 70
      (chartTotal data) data 0 0
    refine ⟨bs, hlen, h0, hchain, ?_, colors_getD_mod⟩
    simp only [drawPieChart, hne, if_false, hops, Nat.zero_add]
  · intro h0
    simp only [drawPieChart, h0, if_true]

/-- Instance of the amended C17: for counts 1, 0 and 3 on a 200 by 200 canvas
the calls are the three sectors, from 0 to a quarter turn, from there to
there, and from there to the full turn, in the first three palette colours,
followed by the centre disc. -/
theorem drawPieChart_sectors_witness :
    doubleCounts sampleChart = true ∧ chartTotal sampleChart ≠ 0 ∧
      drawPieChart (some ⟨200, 200⟩) "#ffffff" sampleChart =
        [CanvasOp.beginPath, CanvasOp.moveTo 100 100,
          CanvasOp.arc 100 100 70 0 (Math.PI / 2), CanvasOp.closePath,
          CanvasOp.fillStyle "#2563eb", CanvasOp.fill,
          CanvasOp.beginPath, CanvasOp.moveTo 100 100,
          CanvasOp.arc 100 100 70 (Math.PI / 2) (Math.PI / 2), CanvasOp.closePath,
          CanvasOp.fillStyle "#10b981", CanvasOp.fill,
          CanvasOp.beginPath, CanvasOp.moveTo 100 100,
          CanvasOp.arc 100 100 70 (Math.PI / 2) (Math.PI * 2), CanvasOp.closePath,
          CanvasOp.fillStyle "#f59e0b", CanvasOp.fill,
          CanvasOp.beginPath, CanvasOp.arc 100 100 45 0 (Math.PI * 2),
          CanvasOp.fillStyle "#ffffff", CanvasOp.fill] ∧
      ∃ bounds : List ℚ, bounds.length = sampleChart.length + 1 ∧ bounds[0]? = some 0 :=
  ⟨by decide!, by decide, by decide!,
    ((drawPieChart_sectors ⟨200, 200⟩ "#ffffff" sampleChart).1 (by decide!) (by decide)).imp
      fun _ h => ⟨h.1, h.2.1⟩⟩

end Polling
